import Mathlib

/-!
# nomad-decode: archive access, LZ decompression and the payload decoders

A shallow embedding of `DatLibrary` (`nomad-resource-explorer/datlibrary.cpp`):
`lzDecompress`, `getFileAtIndex`, `getFileByName`, `loadGamePalette` and
`getInventoryImage`, of the record walk of `Aliens::populateAlienList`
(`nomad-resource-explorer/aliens.cpp`) and of `Missions::getMissionText` (`missions.cpp`),
followed by theorems about them.

Conventions of the embedding

* A byte is a `Fin 256`; a `QByteArray` is a list of bytes.
* C++ integer variables are natural numbers or integers; every place where the source
  can wrap (the 16-bit cursors, the `unsigned int` / `unsigned long` arithmetic, the
  casts to `int`) carries its reduction explicitly.  `unsigned long` and `size_t` are
  64 bits wide, `int` and `unsigned int` 32 bits, `char` is signed.
* The outer loop of `lzDecompress`, the directory walk and the alien record walk run on
  fuel and report when the fuel is used up; loops bounded by a counter take the bound.
* Reads through raw pointers (`rawDat + n`, `memcpy`, record overlays) outside the
  buffer they point into are undefined behaviour in the source; the embedding reports
  them as `outOfBounds`.
-/

namespace NomadDecode

/-- One byte of a buffer. -/
abbrev Byte := Fin 256

/-- The contents of a `QByteArray`. -/
abbrev Bytes := List Byte

/-! ## LZ decompressor -/

/-- Modelled from the spec: the constant `LZ_RINGBUF_SIZE` is declared in `datlibrary.h`,
which is not among the sources; the spec gives a ring buffer of 4096 bytes. -/
def LZ_RINGBUF_SIZE : Nat := 4096

/-- The member array `m_lzRingBuffer`, as a map from positions to bytes. -/
abbrev Ring := Nat → Byte

/-- The assignment `m_lzRingBuffer[pos] = b`. -/
def ringSet (r : Ring) (pos : Nat) (b : Byte) : Ring :=
  fun i => if i = pos then b else r i

/-- The call `memset (m_lzRingBuffer, 0x20, LZ_RINGBUF_SIZE)`. -/
def ringMemset (r : Ring) : Ring :=
  fun i => if i < LZ_RINGBUF_SIZE then 0x20 else r i

/-- The read `static_cast<uint8_t>(compressedfile[i])` on a `QByteArray`: the byte at `i`,
and the zero byte when `i` is not below the size (index `size()` holds the array's
terminating zero, and the byte reference of `operator[]` yields `char(0)` out of range). -/
def byteAt (c : Bytes) (i : Nat) : Byte := c.getD i 0

/-- The increment `x++` of a `uint16_t`. -/
def incU16 (x : Nat) : Nat := (x + 1) % 65536

/-- The increment of a ring cursor followed by `if (p >= LZ_RINGBUF_SIZE) p = 0`. -/
def ringNext (p : Nat) : Nat :=
  if incU16 p ≥ LZ_RINGBUF_SIZE then 0 else incU16 p

/-- The variables of `lzDecompress` that live across loop iterations. -/
structure LzState where
  ring : Ring
  bufPos : Nat
  inputPos : Nat
  out : Bytes
  status : Bool

/-- The copy loop `while (byteIndexInChunk < chunkSize)` of a back-reference
(lines 292-309).  The first argument bounds the number of iterations, the second is
`byteIndexInChunk`, the third `chunkSource`; the final `byteIndexInChunk` is returned
with the state. -/
def lzCopy (chunkSize : Nat) : Nat → Nat → Nat → LzState → Nat × LzState
  | 0, byteIndexInChunk, _, s => (byteIndexInChunk, s)
  | n + 1, byteIndexInChunk, chunkSource, s =>
    if byteIndexInChunk < chunkSize then
      let decodeByte := s.ring chunkSource
      lzCopy chunkSize n (byteIndexInChunk + 1) (ringNext chunkSource)
        { s with
          out := s.out ++ [decodeByte]
          ring := ringSet s.ring s.bufPos decodeByte
          bufPos := ringNext s.bufPos }
    else (byteIndexInChunk, s)

/-- One chunk: the body of the loop over `chunkIndex` (lines 270-315). -/
def lzChunk (c : Bytes) (flagByte : Byte) (chunkIndex : Nat) (s : LzState) : LzState :=
  if (flagByte.val &&& (1 <<< chunkIndex)) ≠ 0 then
    let decodeByte := byteAt c s.inputPos
    { s with
      inputPos := incU16 s.inputPos
      out := s.out ++ [decodeByte]
      ring := ringSet s.ring s.bufPos decodeByte
      bufPos := ringNext s.bufPos }
  else
    let codeword0 := byteAt c s.inputPos
    let codeword1 := byteAt c (incU16 s.inputPos)
    let chunkSize := ((codeword1.val &&& 0xF0) >>> 4) + 3
    let chunkSource := (((codeword1.val &&& 0x0F) <<< 8) ||| codeword0.val) % 65536
    let r := lzCopy chunkSize chunkSize 0 chunkSource
      { s with inputPos := incU16 (incU16 s.inputPos) }
    if r.1 < chunkSize then { r.2 with status := false } else r.2

/-- The loop `while ((chunkIndex < 8) && (inputPos < inputBufLen))` (lines 268-318); the
first argument bounds the number of iterations (eight suffice, `chunkIndex` grows by one
each time). -/
def lzChunks (c : Bytes) (flagByte : Byte) : Nat → Nat → LzState → LzState
  | 0, _, s => s
  | n + 1, chunkIndex, s =>
    if chunkIndex < 8 ∧ s.inputPos < c.length then
      lzChunks c flagByte n (chunkIndex + 1) (lzChunk c flagByte chunkIndex s)
    else s

/-- One iteration of the outer loop: read the flag byte, then up to eight chunks. -/
def lzGroup (c : Bytes) (s : LzState) : LzState :=
  lzChunks c (byteAt c s.inputPos) 8 0 { s with inputPos := incU16 s.inputPos }

/-- The outer loop `while (inputPos < inputBufLen)` (lines 263-319), on fuel. -/
def lzLoop (c : Bytes) : Nat → LzState → Option LzState
  | 0, s => if s.inputPos < c.length then none else some s
  | fuel + 1, s => if s.inputPos < c.length then lzLoop c fuel (lzGroup c s) else some s

/-- The state in which the outer loop is entered: ring buffer filled with 0x20,
`bufPos = 0xFEE`, `inputPos = 0`, `status = true`; `out` is the caller's buffer. -/
def lzInit (ring0 : Ring) (out : Bytes) : LzState :=
  { ring := ringMemset ring0, bufPos := 0xFEE, inputPos := 0, out := out, status := true }

/-- The function `DatLibrary::lzDecompress(compressedfile, decompressedFile)`: `ring0` is
the content of the member ring buffer before the call, `out` the content of
`decompressedFile` before the call.  The result is the returned status with the content
of `decompressedFile` after the call, or `none` when the fuel does not suffice. -/
def lzDecompress (fuel : Nat) (ring0 : Ring) (c : Bytes) (out : Bytes) :
    Option (Bool × Bytes) :=
  (lzLoop c fuel (lzInit ring0 out)).map fun s => (s.status, s.out)

/-! ## Archive access layer -/

/-- Modelled from the spec: the record type `DatFileIndex` is declared in `datlibrary.h`,
which is not among the sources.  The functions below use `sizeof(DatFileIndex)` and the
fields `filename` (14 bytes), `offset` and `compressed_size` (32 bits, little-endian) and
`flags_a`, `flags_b` (the byte that holds the tested bit); a layout gives the size of the
packed record and the position of each of these fields inside it. -/
structure DatFileIndexLayout where
  size : Nat
  filename : Nat
  offset : Nat
  compressed_size : Nat
  flags_a : Nat
  flags_b : Nat
  deriving DecidableEq, Repr

/-- Every field used by the code lies inside the record. -/
def DatFileIndexLayout.WellFormed (L : DatFileIndexLayout) : Prop :=
  L.filename + 14 ≤ L.size ∧ L.offset + 4 ≤ L.size ∧ L.compressed_size + 4 ≤ L.size ∧
    L.flags_a < L.size ∧ L.flags_b < L.size

instance (L : DatFileIndexLayout) : Decidable L.WellFormed := by
  unfold DatFileIndexLayout.WellFormed
  infer_instance

/-- Modelled from the spec: the record layout in the order in which the spec lists the
fields: 14-byte name, 32-bit data offset, 32-bit compressed size, two flag bytes. -/
def specLayout : DatFileIndexLayout :=
  { size := 24, filename := 0, offset := 14, compressed_size := 18, flags_a := 22,
    flags_b := 23 }

/-- What a call of the access layer does. -/
inductive Outcome where
  /-- The call returns `status`; `out` is the content of the output buffer afterwards. -/
  | ret (status : Bool) (out : Bytes)
  /-- The call reads, through a raw pointer into the archive buffer, a byte at a position
  at or beyond the end of that buffer. -/
  | outOfBounds
  /-- The fuel of the embedding is used up before the call returns. -/
  | outOfFuel
  deriving DecidableEq

/-- The conversion `static_cast<int>(x)` of an unsigned value: reduction modulo `2^32`,
read as two's complement. -/
def toInt32 (x : Nat) : Int :=
  if x % 2 ^ 32 < 2 ^ 31 then ((x % 2 ^ 32 : Nat) : Int) else ((x % 2 ^ 32 : Nat) : Int) - 2 ^ 32

/-- A read of `len` bytes at `rawDat + off` (`memcpy`): the bytes, or `none` when one of
them lies at or beyond the end of the buffer.  Nothing is read when `len = 0`. -/
def rawRead (D : Bytes) (off len : Nat) : Option Bytes :=
  if len = 0 then some []
  else if off + len ≤ D.length then some ((D.drop off).take len) else none

/-- The zero-terminated string at `rawDat + off` (`qstrlen`): the bytes before the first
zero byte, or `none` when no zero byte is met before the end of the buffer. -/
def rawCStr (D : Bytes) (off : Nat) : Option Bytes :=
  if (0 : Byte) ∈ D.drop off then some ((D.drop off).takeWhile fun b => b ≠ 0) else none

/-- The value `storedFile` after `storedFile.append(rawDat + offset, compressed_size)` on
an empty array (line 72).  The length parameter of `append` is an `int`; a negative
length makes `append` take the zero-terminated string at the pointer. -/
def storedSlice (D : Bytes) (offset compressed_size : Nat) : Option Bytes :=
  if toInt32 compressed_size < 0 then rawCStr D offset
  else rawRead D offset (toInt32 compressed_size).toNat

/-- A 32-bit little-endian field at position `o` of a record. -/
def le32 (r : Bytes) (o : Nat) : Nat :=
  (byteAt r o).val + 256 * (byteAt r (o + 1)).val + 65536 * (byteAt r (o + 2)).val +
    16777216 * (byteAt r (o + 3)).val

/-- The function `DatLibrary::getFileAtIndex(dat, index, decompressedFile)` on the archive
content `D = m_datContents[dat]`; `decompressedFile` is the content of the output buffer
before the call, `ring0` the content of the member ring buffer, `fuel` the fuel handed
to `lzDecompress`. -/
def getFileAtIndex (L : DatFileIndexLayout) (fuel : Nat) (ring0 : Ring) (D : Bytes)
    (index : Nat) (decompressedFile : Bytes) : Outcome :=
  let indexEntryOffset := (2 + (index * L.size) % 2 ^ 64) % 2 ^ 64
  if (D.length : Int) ≥ toInt32 ((indexEntryOffset + L.size) % 2 ^ 64) then
    match rawRead D indexEntryOffset L.size with
    | none => Outcome.outOfBounds
    | some indexEntry =>
      match storedSlice D (le32 indexEntry L.offset) (le32 indexEntry L.compressed_size) with
      | none => Outcome.outOfBounds
      | some storedFile =>
        if ((byteAt indexEntry L.flags_b).val &&& 0x1) ≠ 0 then
          if ((byteAt indexEntry L.flags_a).val &&& 0x4) ≠ 0 then
            match lzDecompress fuel ring0 storedFile decompressedFile with
            | none => Outcome.outOfFuel
            | some r => Outcome.ret r.1 r.2
          else Outcome.ret false decompressedFile
        else Outcome.ret true storedFile
  else Outcome.ret false decompressedFile

/-- The test `strncmp(a, b, n) == 0`: `a` and `b` are the bytes at the two pointers, a
list that has run out stands for the terminating zero of a C string. -/
def strncmpEq : Nat → Bytes → Bytes → Bool
  | 0, _, _ => true
  | n + 1, a, b =>
    if a.headD 0 ≠ b.headD 0 then false
    else if a.headD 0 = 0 then true
    else strncmpEq n a.tail b.tail

/-- The directory walk of `getFileByName` (lines 108-122): `some (some i)` when the walk
stops with `found` set and `indexNum = i`, `some none` when it stops without,
`none` when the fuel is used up. -/
def findByName (L : DatFileIndexLayout) (D : Bytes) (filename : Bytes) :
    Nat → Nat → Nat → Option (Option Nat)
  | 0, currentIndexOffset, _ =>
    if currentIndexOffset + L.size < D.length then none else some none
  | fuel + 1, currentIndexOffset, indexNum =>
    if currentIndexOffset + L.size < D.length then
      if strncmpEq 14 filename (D.drop (currentIndexOffset + L.filename)) then
        some (some indexNum)
      else findByName L D filename fuel (currentIndexOffset + L.size) ((indexNum + 1) % 2 ^ 32)
    else some none

/-- The function `DatLibrary::getFileByName(dat, filename, filedata)`; `filename` is the
byte string `filename.toStdString().c_str()`. -/
def getFileByName (L : DatFileIndexLayout) (fuel : Nat) (ring0 : Ring) (D : Bytes)
    (filename : Bytes) (filedata : Bytes) : Outcome :=
  match findByName L D filename fuel 2 0 with
  | none => Outcome.outOfFuel
  | some none => Outcome.ret false filedata
  | some (some indexNum) => getFileAtIndex L fuel ring0 D indexNum filedata

/-- An archive for the layout `specLayout`: two header bytes, one directory record
(name `FOO.TXT`, offset 100, compressed size 5, both flag bytes zero), zero bytes up to
position 99, and the bytes `HELLO` at positions 100 to 104. -/
def fooArchive : Bytes :=
  [1, 0] ++ [70, 79, 79, 46, 84, 88, 84, 0, 0, 0, 0, 0, 0, 0] ++ [100, 0, 0, 0] ++
    [5, 0, 0, 0] ++ [0, 0] ++ List.replicate 74 0 ++ [72, 69, 76, 76, 79]

/-- The position of directory record `n` in the archive: `2 + n * sizeof(DatFileIndex)`. -/
def entryPos (L : DatFileIndexLayout) (n : Nat) : Nat := 2 + n * L.size

/-- The field `offset` of directory record `n` of the archive `D`. -/
def entryOffset (L : DatFileIndexLayout) (D : Bytes) (n : Nat) : Nat :=
  le32 D (entryPos L n + L.offset)

/-- The field `compressed_size` of directory record `n` of the archive `D`. -/
def entryCompressedSize (L : DatFileIndexLayout) (D : Bytes) (n : Nat) : Nat :=
  le32 D (entryPos L n + L.compressed_size)

/-- The field `flags_a` of directory record `n` of the archive `D`. -/
def entryFlagsA (L : DatFileIndexLayout) (D : Bytes) (n : Nat) : Nat :=
  (byteAt D (entryPos L n + L.flags_a)).val

/-- The field `flags_b` of directory record `n` of the archive `D`. -/
def entryFlagsB (L : DatFileIndexLayout) (D : Bytes) (n : Nat) : Nat :=
  (byteAt D (entryPos L n + L.flags_b)).val

/-- The bytes of the archive from the field `filename` of directory record `n` on. -/
def entryName (L : DatFileIndexLayout) (D : Bytes) (n : Nat) : Bytes :=
  D.drop (entryPos L n + L.filename)

/-- The archive `fooArchive` cut off after its directory record: 26 bytes, the record
still declares offset 100 and compressed size 5. -/
def truncatedArchive : Bytes := fooArchive.take 26

/-- A `CONVERSE.DAT` for the layout `specLayout` with two uncompressed records:
`MISTEXT.IDX` (offset 50, 8 bytes: the slots 0x09090909 and 1) and `MISTEXT.TXT`
(offset 58, 3 bytes: `A B` and a zero byte). -/
def converseArchive : Bytes :=
  [2, 0] ++
    ([77, 73, 83, 84, 69, 88, 84, 46, 73, 68, 88, 0, 0, 0] ++ [50, 0, 0, 0] ++ [8, 0, 0, 0] ++
      [0, 0]) ++
    ([77, 73, 83, 84, 69, 88, 84, 46, 84, 88, 84, 0, 0, 0] ++ [58, 0, 0, 0] ++ [3, 0, 0, 0] ++
      [0, 0]) ++
    [9, 9, 9, 9, 1, 0, 0, 0] ++ [65, 66, 0]

/-- The byte string `FOO.TXT`. -/
def fooName : Bytes := [70, 79, 79, 46, 84, 88, 84]

/-- The byte string `BAR.TXT`. -/
def barName : Bytes := [66, 65, 82, 46, 84, 88, 84]

/-- The byte string `HELLO`. -/
def helloBytes : Bytes := [72, 69, 76, 76, 79]

/-- The effect of one literal chunk that reads the byte `x` (lines 273-280). -/
def litStep (s : LzState) (x : Byte) : LzState :=
  { s with
    inputPos := incU16 s.inputPos
    out := s.out ++ [x]
    ring := ringSet s.ring s.bufPos x
    bufPos := ringNext s.bufPos }

/-- The effect of a run of literal chunks that read the bytes `g`. -/
def litRun (s : LzState) (g : Bytes) : LzState := g.foldl litStep s

/-- The literal-only encoding of `b`, on a counter that bounds the number of groups: the
bytes are cut into groups of 8 (the last group holds what is left) and every group is
preceded by the flag byte 0xFF. -/
def litEncodeAux : Nat → Bytes → Bytes
  | 0, _ => []
  | n + 1, b => if b = [] then [] else (0xFF : Byte) :: (b.take 8 ++ litEncodeAux n (b.drop 8))

/-- The literal-only encoding of `b`. -/
def litEncode (b : Bytes) : Bytes := litEncodeAux b.length b

/-- The second codeword byte of a back-reference of length `len` to ring position 0xFEE:
`((len - 3) << 4) | 0x0F`. -/
def backrefByte1 (len : Nat) : Byte := Fin.ofNat ((((len - 3) <<< 4) ||| 0x0F))

/-- The stream `[flag, b0 .. b(k-1), 0xEE, ((len - 3) << 4) | 0x0F]`. -/
def backrefStream (flag : Byte) (lits : Bytes) (len : Nat) : Bytes :=
  flag :: (lits ++ [0xEE, backrefByte1 len])

/-- Two states of `lzDecompress` that differ at most in ring positions outside the
buffer (`4096` and above), with the write cursor inside the buffer. -/
def LzSim (s t : LzState) : Prop :=
  s.bufPos = t.bufPos ∧ s.inputPos = t.inputPos ∧ s.out = t.out ∧ s.status = t.status ∧
    s.bufPos < 4096 ∧ ∀ i, i < 4096 → s.ring i = t.ring i

/-! ## Palette, inventory images, alien table, mission text -/

/-- What a call of one of the higher-level readers does: it returns a value, or reads a
byte outside a buffer through a raw pointer, or uses up the fuel of the embedding. -/
inductive Run (α : Type) where
  | ret (a : α)
  | outOfBounds
  | outOfFuel
  deriving DecidableEq

/-- The value of a `char` holding the byte `b` (`char` is signed). -/
def charInt (b : Byte) : Int := if b.val < 128 then (b.val : Int) else (b.val : Int) - 256

/-- The expression `(paldata[i] << 2) | (paldata[i] >> 4)` of `loadGamePalette`
(lines 146-148), computed in `int` on the `char` value of the byte. -/
def palChannel (b : Byte) : Int :=
  Int.lor (charInt b <<< (2 : Int)) (charInt b >>> (4 : Nat))

/-- The colour `qRgb(r, g, b)`: `0xff000000 | (r & 0xff) << 16 | (g & 0xff) << 8 | (b & 0xff)`. -/
def qRgb (r g b : Int) : Nat :=
  0xff000000 ||| ((r % 256).toNat <<< 16) ||| ((g % 256).toNat <<< 8) ||| (b % 256).toNat

/-- The loop `for (palByteIdx = 3; palByteIdx < paldata.size() - 3; ++palByteIdx)` of
`loadGamePalette` (lines 142-150); the first argument bounds the number of iterations,
the last is the content of `m_gamePalette`. -/
def palLoop (paldata : Bytes) : Nat → Nat → List Nat → List Nat
  | 0, _, pal => pal
  | n + 1, palByteIdx, pal =>
    if (palByteIdx : Int) < (paldata.length : Int) - 3 then
      palLoop paldata n (palByteIdx + 1)
        (pal ++ [qRgb (palChannel (byteAt paldata palByteIdx))
          (palChannel (byteAt paldata (palByteIdx + 1)))
          (palChannel (byteAt paldata (palByteIdx + 2)))])
    else pal

/-- The byte string `GAME.PAL`. -/
def gamePalName : Bytes := [71, 65, 77, 69, 46, 80, 65, 76]

/-- The function `DatLibrary::loadGamePalette()`: `test` is the content of `TEST.DAT`,
`m_gamePalette` the cached palette before the call; the result is the returned status
with the cached palette after the call. -/
def loadGamePalette (L : DatFileIndexLayout) (fuel : Nat) (ring0 : Ring) (test : Bytes)
    (m_gamePalette : List Nat) : Run (Bool × List Nat) :=
  if m_gamePalette.length = 0 then
    match getFileByName L fuel ring0 test gamePalName [] with
    | Outcome.ret true paldata =>
      Run.ret (true, palLoop paldata paldata.length 3 m_gamePalette)
    | Outcome.ret false _ => Run.ret (false, m_gamePalette)
    | Outcome.outOfBounds => Run.outOfBounds
    | Outcome.outOfFuel => Run.outOfFuel
  else Run.ret (true, m_gamePalette)

/-- The pixels of a `QImage` of format `Indexed8`: the index stored at `(x, y)`. -/
abbrev Image := Nat × Nat → Byte

/-- The function `DatLibrary::getPixelLocation(imgWidth, pixelNum)`.  (It is only called
with `imgWidth > 0`.) -/
def getPixelLocation (imgWidth pixelNum : Nat) : Nat × Nat :=
  (pixelNum % imgWidth, pixelNum / imgWidth)

/-- The conversion `static_cast<unsigned int>(c)` of the `char` holding the byte `b`. -/
def charToUInt (b : Byte) : Nat := if b.val < 128 then b.val else b.val + (2 ^ 32 - 256)

/-- The call `img->setPixel(p, index_or_rgb)` on an `Indexed8` image of the given size
with `colorCount` colours: the pixel is set, unless the coordinate lies outside the
image or the index is not below the colour count, in which case the call does nothing. -/
def setPixel (width height colorCount : Nat) (img : Image) (p : Nat × Nat)
    (index_or_rgb : Nat) : Image :=
  if p.1 < width ∧ p.2 < height ∧ index_or_rgb < colorCount then
    fun q => if q = p then Fin.ofNat index_or_rgb else img q
  else img

/-- The value of an `int` expression whose exact value is `x`: reduction to the range of
`int` (two's complement). -/
def wrap32 (x : Int) : Int := (x + 2 ^ 31) % 2 ^ 32 - 2 ^ 31

/-- The loops `while ((outputpos < endptr) && (outputpos < pixelcount))` of the skip and
repeat runs (lines 194-198 and 208-212), which set pixels to `value`.  The first argument
bounds the number of iterations (127 suffice, `endptr - outputpos` is at most 127);
the result is the final `outputpos` with the image. -/
def fillRun (width height colorCount : Nat) (pixelcount : Int) (value : Nat) (endptr : Int) :
    Nat → Nat → Image → Nat × Image
  | 0, outputpos, img => (outputpos, img)
  | n + 1, outputpos, img =>
    if (outputpos : Int) < endptr ∧ (outputpos : Int) < pixelcount then
      fillRun width height colorCount pixelcount value endptr n (outputpos + 1)
        (setPixel width height colorCount img (getPixelLocation width outputpos) value)
    else (outputpos, img)

/-- The loop `while ((outputpos + endptr) && (outputpos < pixelcount) && (inputpos <
imageFile.size()))` of the literal run (lines 222-227).  The first argument bounds the
number of iterations (the size of the payload suffices, `inputpos` grows each time); the
result is the final `inputpos` and `outputpos` with the image. -/
def literalRun (imageFile : Bytes) (width height colorCount : Nat) (pixelcount : Int)
    (endptr : Int) : Nat → Nat → Nat → Image → Nat × Nat × Image
  | 0, inputpos, outputpos, img => (inputpos, outputpos, img)
  | n + 1, inputpos, outputpos, img =>
    if wrap32 ((outputpos : Int) + endptr) ≠ 0 ∧ (outputpos : Int) < pixelcount ∧
        inputpos < imageFile.length then
      literalRun imageFile width height colorCount pixelcount endptr n (inputpos + 1)
        (outputpos + 1)
        (setPixel width height colorCount img (getPixelLocation width outputpos)
          (charToUInt (byteAt imageFile inputpos)))
    else (inputpos, outputpos, img)

/-- The variables of the decoding loop of `getInventoryImage`. -/
structure RleState where
  inputpos : Nat
  outputpos : Nat
  img : Image

/-- The body of the decoding loop of `getInventoryImage` (lines 186-228). -/
def rleStep (imageFile : Bytes) (width height colorCount : Nat) (pixelcount : Int)
    (s : RleState) : RleState :=
  let rlebyte := byteAt imageFile s.inputpos
  let inputpos := s.inputpos + 1
  if (rlebyte.val &&& 0x80) ≠ 0 then
    let endptr := wrap32 ((s.outputpos : Int) + ((rlebyte.val &&& 0x7F : Nat) : Int))
    let r := fillRun width height colorCount pixelcount 0x00 endptr 127 s.outputpos s.img
    { inputpos := inputpos, outputpos := r.1, img := r.2 }
  else if (rlebyte.val &&& 0x40) ≠ 0 then
    if inputpos < imageFile.length then
      let endptr := wrap32 ((s.outputpos : Int) + ((rlebyte.val &&& 0x7F : Nat) : Int))
      let r := fillRun width height colorCount pixelcount
        (charToUInt (byteAt imageFile inputpos)) endptr 127 s.outputpos s.img
      { inputpos := inputpos + 1, outputpos := r.1, img := r.2 }
    else { inputpos := inputpos + 1, outputpos := s.outputpos, img := s.img }
  else
    let endptr := wrap32 ((s.outputpos : Int) + (rlebyte.val : Int))
    let r := literalRun imageFile width height colorCount pixelcount endptr imageFile.length
      inputpos s.outputpos s.img
    { inputpos := r.1, outputpos := r.2.1, img := r.2.2 }

/-- The loop `while ((inputpos < imageFile.size()) && (outputpos < pixelcount))`
(lines 184-229).  The first argument bounds the number of iterations (the size of the
payload suffices, `inputpos` grows each time). -/
def rleLoop (imageFile : Bytes) (width height colorCount : Nat) (pixelcount : Int) :
    Nat → RleState → RleState
  | 0, s => s
  | n + 1, s =>
    if s.inputpos < imageFile.length ∧ (s.outputpos : Int) < pixelcount then
      rleLoop imageFile width height colorCount pixelcount n
        (rleStep imageFile width height colorCount pixelcount s)
    else s

/-- A 16-bit little-endian field at position `o`. -/
def le16 (r : Bytes) (o : Nat) : Nat := (byteAt r o).val + 256 * (byteAt r (o + 1)).val

/-- The width of the image payload (bytes 0 and 1). -/
def imageWidth (imageFile : Bytes) : Nat := le16 imageFile 0

/-- The height of the image payload (bytes 2 and 3). -/
def imageHeight (imageFile : Bytes) : Nat := le16 imageFile 2

/-- The variable `pixelcount = width * height`, an `int`. -/
def imagePixelcount (imageFile : Bytes) : Int :=
  wrap32 ((imageWidth imageFile * imageHeight imageFile : Nat) : Int)

/-- Lines 173-229 of `getInventoryImage` on the payload `imageFile`: the image of
`width * height` pixels is constructed (`img0` is what the constructor of `QImage` leaves
in the pixel buffer: it does not initialise it), the colour table of `colorCount` entries
is attached, and the decoding loop runs from `inputpos = 8`, `outputpos = 0`. -/
def decodeImage (imageFile : Bytes) (colorCount : Nat) (img0 : Image) : RleState :=
  rleLoop imageFile (imageWidth imageFile) (imageHeight imageFile) colorCount
    (imagePixelcount imageFile) imageFile.length { inputpos := 8, outputpos := 0, img := img0 }

/-- The function `DatLibrary::getInventoryImage(objectId, img)`: `invent` and `test` are
the contents of `INVENT.DAT` and `TEST.DAT`, `m_gamePalette` the cached palette, `img0`
the uninitialised pixel buffer.  The result is the returned status.  (The ring buffer
content handed to the second call is immaterial: `lzDecompress` refills it.) -/
def getInventoryImage (L : DatFileIndexLayout) (fuel : Nat) (ring0 : Ring)
    (invent test : Bytes) (m_gamePalette : List Nat) (objectId : Nat) (img0 : Image) :
    Run Bool :=
  match getFileAtIndex L fuel ring0 invent objectId [] with
  | Outcome.outOfBounds => Run.outOfBounds
  | Outcome.outOfFuel => Run.outOfFuel
  | Outcome.ret false _ => Run.ret true
  | Outcome.ret true imageFile =>
    match loadGamePalette L fuel ring0 test m_gamePalette with
    | Run.outOfBounds => Run.outOfBounds
    | Run.outOfFuel => Run.outOfFuel
    | Run.ret (false, _) => Run.ret true
    | Run.ret (true, palette) =>
      if imageFile.length < 4 then Run.outOfBounds
      else
        let s := decodeImage imageFile palette.length img0
        -- lines 232-235: `status = false` when the input ran dry before the grid was full
        let _status : Bool :=
          if imageFile.length ≤ s.inputpos ∧ (s.outputpos : Int) < imagePixelcount imageFile
          then false else true
        -- lines 238-240: the block `{ status = false; }` has no condition
        Run.ret false

/-- The size of one record of `ALIEN.TAB`: `sizeof(AlienTableEntry)`, a packed record of
a 16-bit `nameOffset`, an 8-bit `race` and 5 further bytes (`aliens.h`). -/
def ALIEN_ENTRY_SIZE : Nat := 8

/-- The record walk of `Aliens::populateAlienList` (lines 93-112) over the payload
`aliendata`: on fuel, with `offset` (an `unsigned int`), `id`, and the list of the record
indices whose body has been entered.  The comparison of line 93 is made in `unsigned
long`: `aliendata.size() - sizeof(AlienTableEntry)` is reduced modulo `2^64`.  The body
reads `nameOffset` (two bytes at `offset`) and, when it is not 0xFFFF, `race` (the byte
at `offset + 2`); the entries put into `m_alienList` are not part of the embedding. -/
def alienWalk (aliendata : Bytes) : Nat → Nat → Nat → List Nat → Run (List Nat)
  | 0, offset, _, examined =>
    if offset ≤ (aliendata.length + 2 ^ 64 - ALIEN_ENTRY_SIZE) % 2 ^ 64 then Run.outOfFuel
    else Run.ret examined
  | fuel + 1, offset, id, examined =>
    if offset ≤ (aliendata.length + 2 ^ 64 - ALIEN_ENTRY_SIZE) % 2 ^ 64 then
      match rawRead aliendata offset 2 with
      | none => Run.outOfBounds
      | some nameOffset =>
        if le16 nameOffset 0 ≠ 0xFFFF ∧ rawRead aliendata (offset + 2) 1 = none then
          Run.outOfBounds
        else
          alienWalk aliendata fuel ((offset + ALIEN_ENTRY_SIZE) % 2 ^ 32) (id + 1)
            (examined ++ [id])
    else Run.ret examined

/-- The record walk of `populateAlienList` from `offset = 0`, `id = 0`. -/
def populateAlienListWalk (fuel : Nat) (aliendata : Bytes) : Run (List Nat) :=
  alienWalk aliendata fuel 0 0 []

/-- Lines 74-85 of `Missions::getMissionText`, entered when both blobs have been
resolved.  `readString blob offset` stands for `m_gtext->readString(rawdata + offset,
commands)` (its source is not among the sources; it is a parameter), `noText` for the
empty string with the commands untouched.  The `memcpy` of line 77 and the pointer
`rawdata + txtOffset` of line 83 are raw reads of the blobs. -/
def getMissionTextBody {α : Type} (readString : Bytes → Nat → α) (noText : α)
    (misTextIdxData misTextStrData : Bytes) (idxFileIndex : Nat) : Run α :=
  let idxOffset := (idxFileIndex + 1) * 4
  match rawRead misTextIdxData idxOffset 4 with
  | none => Run.outOfBounds
  | some raw =>
    let txtOffset := toInt32 (le32 raw 0)
    if txtOffset < (misTextStrData.length : Int) then
      if txtOffset < 0 then Run.outOfBounds
      else Run.ret (readString misTextStrData txtOffset.toNat)
    else Run.ret noText

/-- The byte string `MISTEXT.IDX`. -/
def misTextIdxName : Bytes := [77, 73, 83, 84, 69, 88, 84, 46, 73, 68, 88]

/-- The byte string `MISTEXT.TXT`. -/
def misTextTxtName : Bytes := [77, 73, 83, 84, 69, 88, 84, 46, 84, 88, 84]

/-- The function `Missions::getMissionText(idxFileIndex, commands)`; `converse` is the
content of `CONVERSE.DAT`. -/
def getMissionText {α : Type} (L : DatFileIndexLayout) (fuel : Nat) (ring0 : Ring)
    (converse : Bytes) (readString : Bytes → Nat → α) (noText : α) (idxFileIndex : Nat) :
    Run α :=
  match getFileByName L fuel ring0 converse misTextIdxName [] with
  | Outcome.outOfBounds => Run.outOfBounds
  | Outcome.outOfFuel => Run.outOfFuel
  | Outcome.ret false _ => Run.ret noText
  | Outcome.ret true misTextIdxData =>
    match getFileByName L fuel ring0 converse misTextTxtName [] with
    | Outcome.outOfBounds => Run.outOfBounds
    | Outcome.outOfFuel => Run.outOfFuel
    | Outcome.ret false _ => Run.ret noText
    | Outcome.ret true misTextStrData =>
      getMissionTextBody readString noText misTextIdxData misTextStrData idxFileIndex

/-- An archive for the layout `specLayout` with one uncompressed record `name` whose
data `payload` follows the directory at offset 26 (the payload is shorter than 256
bytes, the name has at most 14 bytes). -/
def oneFileArchive (name : Bytes) (payload : Bytes) : Bytes :=
  [1, 0] ++ (name ++ List.replicate (14 - name.length) 0) ++ [26, 0, 0, 0] ++
    [Fin.ofNat payload.length, 0, 0, 0] ++ [0, 0] ++ payload

/-- The image `img'` agrees with `img` on every cell at or beyond the position `cursor`
(in the numbering of `getPixelLocation`) and on every pixel outside the `width * height`
image. -/
def Untouched (width height cursor : Nat) (img img' : Image) : Prop :=
  (∀ p, cursor ≤ p → img' (getPixelLocation width p) = img (getPixelLocation width p)) ∧
    (∀ q : Nat × Nat, ¬(q.1 < width ∧ q.2 < height) → img' q = img q)

/-- The state `s` with the bytes `P` put in front of its output. -/
def prependOut (P : Bytes) (s : LzState) : LzState := { s with out := P ++ s.out }

/-- The value of `inputPos` after the chunk loop of `lzDecompress` (`lzChunks`), as a
function of the length of the input, the flag byte and the value of `inputPos` before:
a literal chunk advances the cursor once, a back-reference twice. -/
def chunksPos (len : Nat) (flagByte : Byte) : Nat → Nat → Nat → Nat
  | 0, _, p => p
  | n + 1, chunkIndex, p =>
    if chunkIndex < 8 ∧ p < len then
      chunksPos len flagByte n (chunkIndex + 1)
        (if (flagByte.val &&& (1 <<< chunkIndex)) ≠ 0 then incU16 p else incU16 (incU16 p))
    else p

/-- An input of 65535 bytes, all 0x01: every group is a flag byte, one literal and seven
back-references (16 bytes), and the last back-reference starts at index 65534. -/
def onesInput : Bytes := List.replicate 65535 1

/-- An archive for the layout `specLayout` with one record (offset 26, size of `payload`)
flagged as stored compressed in the supported scheme (`flags_a = 4`, `flags_b = 1`). -/
def oneCompressedArchive (name : Bytes) (payload : Bytes) : Bytes :=
  [1, 0] ++ (name ++ List.replicate (14 - name.length) 0) ++ [26, 0, 0, 0] ++
    [Fin.ofNat payload.length, 0, 0, 0] ++ [4, 1] ++ payload

/-! ## Auxiliary facts -/

theorem toInt32_of_lt {x : Nat} (h : x < 2 ^ 31) : toInt32 x = (x : Int) := by
  have h1 : x % 2 ^ 32 = x := Nat.mod_eq_of_lt (by omega)
  unfold toInt32
  rw [h1, if_pos h]

theorem toInt32_of_ge {x : Nat} (h : 2 ^ 31 ≤ x) (h2 : x < 2 ^ 32) :
    toInt32 x = (x : Int) - 2 ^ 32 := by
  have h1 : x % 2 ^ 32 = x := Nat.mod_eq_of_lt h2
  unfold toInt32
  rw [h1, if_neg (by omega)]

theorem byteAt_take_drop (D : Bytes) (off len j : Nat) (hj : j < len) :
    byteAt ((D.drop off).take len) j = byteAt D (off + j) := by
  simp [byteAt, List.getD_eq_getElem?_getD, List.getElem?_take, hj, List.getElem?_drop]

theorem le32_take_drop (D : Bytes) (off len o : Nat) (ho : o + 4 ≤ len) :
    le32 ((D.drop off).take len) o = le32 D (off + o) := by
  unfold le32
  rw [byteAt_take_drop D off len o (by omega), byteAt_take_drop D off len (o + 1) (by omega),
    byteAt_take_drop D off len (o + 2) (by omega), byteAt_take_drop D off len (o + 3) (by omega)]
  simp [Nat.add_assoc]

theorem le32_lt (r : Bytes) (o : Nat) : le32 r o < 2 ^ 32 := by
  unfold le32
  have h0 := (byteAt r o).isLt
  have h1 := (byteAt r (o + 1)).isLt
  have h2 := (byteAt r (o + 2)).isLt
  have h3 := (byteAt r (o + 3)).isLt
  omega

/-- When record `n` lies inside the archive, the guard of `getFileAtIndex` holds and the
record is copied; the call then continues with the slice and the flags. -/
theorem getFileAtIndex_of_slot (L : DatFileIndexLayout) (hL : L.WellFormed) (fuel : Nat)
    (ring0 : Ring) (D : Bytes) (n : Nat) (out : Bytes) (hD : D.length < 2 ^ 31)
    (hslot : 2 + (n + 1) * L.size ≤ D.length) :
    getFileAtIndex L fuel ring0 D n out =
      match storedSlice D (entryOffset L D n) (entryCompressedSize L D n) with
      | none => Outcome.outOfBounds
      | some storedFile =>
        if (entryFlagsB L D n &&& 0x1) ≠ 0 then
          if (entryFlagsA L D n &&& 0x4) ≠ 0 then
            match lzDecompress fuel ring0 storedFile out with
            | none => Outcome.outOfFuel
            | some r => Outcome.ret r.1 r.2
          else Outcome.ret false out
        else Outcome.ret true storedFile := by
  obtain ⟨h1, h2, h3, h4, h5⟩ := hL
  have hS : 0 < L.size := by omega
  have hmul : (n + 1) * L.size = n * L.size + L.size := by ring
  have e1 : (n * L.size) % 2 ^ 64 = n * L.size := Nat.mod_eq_of_lt (by omega)
  have e2 : (2 + n * L.size) % 2 ^ 64 = 2 + n * L.size := Nat.mod_eq_of_lt (by omega)
  have e3 : (2 + n * L.size + L.size) % 2 ^ 64 = 2 + n * L.size + L.size :=
    Nat.mod_eq_of_lt (by omega)
  have e4 : toInt32 (2 + n * L.size + L.size) = ((2 + n * L.size + L.size : Nat) : Int) :=
    toInt32_of_lt (by omega)
  have hg : (D.length : Int) ≥ ((2 + n * L.size + L.size : Nat) : Int) := by
    have : 2 + n * L.size + L.size ≤ D.length := by omega
    exact_mod_cast this
  have hr : rawRead D (2 + n * L.size) L.size = some ((D.drop (2 + n * L.size)).take L.size) := by
    unfold rawRead
    rw [if_neg (by omega), if_pos (by omega)]
  unfold getFileAtIndex
  simp only [e1, e2, e3, e4, hg, if_true, hr]
  rw [le32_take_drop D _ _ _ h2, le32_take_drop D _ _ _ h3,
    byteAt_take_drop D _ _ _ h4, byteAt_take_drop D _ _ _ h5]
  rfl

theorem storedSlice_of_le (D : Bytes) (off cs : Nat) (hD : D.length < 2 ^ 31)
    (h : off + cs ≤ D.length) : storedSlice D off cs = some ((D.drop off).take cs) := by
  have e : toInt32 cs = (cs : Int) := toInt32_of_lt (by omega)
  unfold storedSlice
  rw [e, if_neg (by omega), Int.toNat_ofNat]
  unfold rawRead
  by_cases h0 : cs = 0
  · simp [h0]
  · rw [if_neg h0, if_pos h]

theorem storedSlice_of_gt (D : Bytes) (off cs : Nat) (hpos : 0 < cs) (hlt : cs < 2 ^ 31)
    (h : D.length < off + cs) : storedSlice D off cs = none := by
  have e : toInt32 cs = (cs : Int) := toInt32_of_lt hlt
  unfold storedSlice
  rw [e, if_neg (by omega), Int.toNat_ofNat]
  unfold rawRead
  rw [if_neg (by omega), if_neg (by omega)]

/-- A record that is stored compressed in an unsupported scheme and whose slice lies
inside the archive: the call returns `false` and the output buffer is as before. -/
theorem getFileAtIndex_unsupported_of_slice (L : DatFileIndexLayout) (hL : L.WellFormed)
    (fuel : Nat) (ring0 : Ring) (D : Bytes) (n : Nat) (out : Bytes) (hD : D.length < 2 ^ 31)
    (hslot : 2 + (n + 1) * L.size ≤ D.length)
    (hb : (entryFlagsB L D n &&& 0x1) ≠ 0) (ha : (entryFlagsA L D n &&& 0x4) = 0)
    (hslice : entryOffset L D n + entryCompressedSize L D n ≤ D.length) :
    getFileAtIndex L fuel ring0 D n out = Outcome.ret false out := by
  rw [getFileAtIndex_of_slot L hL fuel ring0 D n out hD hslot,
    storedSlice_of_le D _ _ hD hslice]
  dsimp only
  rw [if_pos hb, if_neg (fun h => h ha)]

theorem findByName_none (L : DatFileIndexLayout) (hS : 0 < L.size) (D : Bytes)
    (filename : Bytes)
    (hno : ∀ i, 2 + (i + 1) * L.size < D.length →
      strncmpEq 14 filename (entryName L D i) = false) :
    ∀ (fuel i indexNum : Nat), D.length ≤ fuel + entryPos L i →
      findByName L D filename fuel (entryPos L i) indexNum = some none := by
  intro fuel
  induction fuel with
  | zero =>
    intro i indexNum h
    unfold findByName
    rw [if_neg (by omega)]
  | succ f ih =>
    intro i indexNum h
    have hp : entryPos L (i + 1) = entryPos L i + L.size := by
      unfold entryPos
      ring
    unfold findByName
    by_cases hc : entryPos L i + L.size < D.length
    · have hm : strncmpEq 14 filename (D.drop (entryPos L i + L.filename)) = false := by
        have := hno i (by unfold entryPos at hc; have : (i + 1) * L.size = i * L.size + L.size := by ring
                          omega)
        simpa [entryName] using this
      rw [if_pos hc, hm]
      simp only [Bool.false_eq_true, if_false]
      rw [← hp]
      exact ih (i + 1) _ (by omega)
    · rw [if_neg hc]

/-! ### The LZ loops -/

theorem incU16_lt (x : Nat) : incU16 x < 65536 := by
  unfold incU16
  omega

theorem incU16_of_lt {x : Nat} (h : x + 1 < 65536) : incU16 x = x + 1 := by
  unfold incU16
  omega

theorem lzCopy_inputPos (chunkSize : Nat) :
    ∀ (n idx src : Nat) (s : LzState), (lzCopy chunkSize n idx src s).2.inputPos = s.inputPos := by
  intro n
  induction n with
  | zero => intro idx src s; rfl
  | succ n ih =>
    intro idx src s
    unfold lzCopy
    split
    · rw [ih]
    · rfl

theorem lzChunk_inputPos_lt (c : Bytes) (flagByte : Byte) (chunkIndex : Nat) (s : LzState) :
    (lzChunk c flagByte chunkIndex s).inputPos < 65536 := by
  unfold lzChunk
  split
  · exact incU16_lt _
  · dsimp only
    split
    · show (lzCopy _ _ _ _ _).2.inputPos < 65536
      rw [lzCopy_inputPos]
      exact incU16_lt _
    · rw [lzCopy_inputPos]
      exact incU16_lt _

theorem lzChunks_inputPos_lt (c : Bytes) (flagByte : Byte) :
    ∀ (n chunkIndex : Nat) (s : LzState), s.inputPos < 65536 →
      (lzChunks c flagByte n chunkIndex s).inputPos < 65536 := by
  intro n
  induction n with
  | zero => intro chunkIndex s h; exact h
  | succ n ih =>
    intro chunkIndex s h
    unfold lzChunks
    split
    · exact ih _ _ (lzChunk_inputPos_lt c flagByte chunkIndex s)
    · exact h

theorem lzGroup_inputPos_lt (c : Bytes) (s : LzState) : (lzGroup c s).inputPos < 65536 :=
  lzChunks_inputPos_lt c _ 8 0 _ (incU16_lt _)

/-- On an input of 65536 bytes or more the 16-bit cursor `inputPos` never reaches the
length, and the outer loop does not stop, whatever the fuel. -/
theorem lzLoop_long_input (c : Bytes) (hc : 65536 ≤ c.length) :
    ∀ (fuel : Nat) (s : LzState), s.inputPos < 65536 → lzLoop c fuel s = none := by
  intro fuel
  induction fuel with
  | zero =>
    intro s h
    unfold lzLoop
    rw [if_pos (by omega)]
  | succ f ih =>
    intro s h
    unfold lzLoop
    rw [if_pos (by omega)]
    exact ih _ (lzGroup_inputPos_lt c s)

theorem lzLoop_succ (c : Bytes) (fuel : Nat) (s : LzState) :
    lzLoop c (fuel + 1) s =
      if s.inputPos < c.length then lzLoop c fuel (lzGroup c s) else some s := rfl

theorem lzLoop_stop (c : Bytes) (fuel : Nat) (s : LzState) (h : c.length ≤ s.inputPos) :
    lzLoop c fuel s = some s := by
  cases fuel with
  | zero =>
    unfold lzLoop
    rw [if_neg (by omega)]
  | succ f => rw [lzLoop_succ, if_neg (by omega)]

theorem lzChunks_succ (c : Bytes) (flagByte : Byte) (n chunkIndex : Nat) (s : LzState) :
    lzChunks c flagByte (n + 1) chunkIndex s =
      if chunkIndex < 8 ∧ s.inputPos < c.length then
        lzChunks c flagByte n (chunkIndex + 1) (lzChunk c flagByte chunkIndex s)
      else s := rfl

theorem lzChunks_stop (c : Bytes) (flagByte : Byte) (n chunkIndex : Nat) (s : LzState)
    (h : c.length ≤ s.inputPos) : lzChunks c flagByte n chunkIndex s = s := by
  cases n with
  | zero => rfl
  | succ n => rw [lzChunks_succ, if_neg (by omega)]

theorem lzChunk_literal (c : Bytes) (flagByte : Byte) (chunkIndex : Nat) (s : LzState)
    (h : (flagByte.val &&& (1 <<< chunkIndex)) ≠ 0) :
    lzChunk c flagByte chunkIndex s = litStep s (byteAt c s.inputPos) := by
  unfold lzChunk
  rw [if_pos h]
  rfl

theorem byteAt_append_cons (pre : Bytes) (x : Byte) (rest : Bytes) :
    byteAt (pre ++ x :: rest) pre.length = x := by
  induction pre with
  | nil => rfl
  | cons a p ih => exact ih

theorem litRun_cons (s : LzState) (x : Byte) (g : Bytes) :
    litRun s (x :: g) = litRun (litStep s x) g := rfl

theorem litRun_out (g : Bytes) : ∀ s : LzState, (litRun s g).out = s.out ++ g := by
  induction g with
  | nil => intro s; simp [litRun]
  | cons x g ih =>
    intro s
    rw [litRun_cons, ih]
    simp [litStep]

theorem litRun_status (g : Bytes) : ∀ s : LzState, (litRun s g).status = s.status := by
  induction g with
  | nil => intro s; rfl
  | cons x g ih =>
    intro s
    rw [litRun_cons, ih]
    rfl

theorem litRun_inputPos (g : Bytes) :
    ∀ s : LzState, s.inputPos + g.length < 65536 →
      (litRun s g).inputPos = s.inputPos + g.length := by
  induction g with
  | nil => intro s _; rfl
  | cons x g ih =>
    intro s h
    simp only [List.length_cons] at h
    have h1 : (litStep s x).inputPos = s.inputPos + 1 := incU16_of_lt (by omega)
    rw [litRun_cons, ih _ (by rw [h1]; omega), h1, List.length_cons]
    omega

/-- A run of chunks whose flag bits are set: the chunk loop consumes the bytes `g` as
literals. -/
theorem lzChunks_literals (flagByte : Byte) (post : Bytes) (g : Bytes) :
    ∀ (pre : Bytes) (k chunkIndex : Nat) (s : LzState),
      s.inputPos = pre.length → (pre ++ g ++ post).length < 65536 →
      (∀ i, i < g.length → (flagByte.val &&& (1 <<< (chunkIndex + i))) ≠ 0) →
      chunkIndex + g.length ≤ 8 → g.length ≤ k →
      lzChunks (pre ++ g ++ post) flagByte k chunkIndex s =
        lzChunks (pre ++ g ++ post) flagByte (k - g.length) (chunkIndex + g.length)
          (litRun s g) := by
  induction g with
  | nil =>
    intro pre k chunkIndex s _ _ _ _ _
    rfl
  | cons x g ih =>
    intro pre k chunkIndex s hs hl hbits hci hk
    simp only [List.length_cons] at hci hk
    obtain ⟨k', rfl⟩ : ∃ k', k = k' + 1 := ⟨k - 1, by omega⟩
    have hc : pre ++ x :: g ++ post = (pre ++ [x]) ++ g ++ post := by simp
    have hlen : (pre ++ x :: g ++ post).length = pre.length + (g.length + 1) + post.length := by
      simp
      omega
    have hx : byteAt (pre ++ x :: g ++ post) s.inputPos = x := by
      rw [hs, List.append_assoc, List.cons_append]
      exact byteAt_append_cons pre x (g ++ post)
    have hbit0 := hbits 0 (by simp)
    rw [Nat.add_zero] at hbit0
    rw [lzChunks_succ, if_pos ⟨by omega, by omega⟩, lzChunk_literal _ _ _ _ hbit0, hx,
      litRun_cons, hc]
    have hpos : (litStep s x).inputPos = (pre ++ [x]).length := by
      have : (litStep s x).inputPos = s.inputPos + 1 := incU16_of_lt (by omega)
      rw [this, hs]
      simp
    have hstep := ih (pre ++ [x]) k' (chunkIndex + 1) (litStep s x) hpos (by rw [← hc]; exact hl)
      (by
        intro i hi
        have := hbits (i + 1) (by simp only [List.length_cons]; omega)
        rwa [show chunkIndex + (i + 1) = chunkIndex + 1 + i by omega] at this)
      (by omega) (by omega)
    rw [hstep]
    have e1 : k' + 1 - (x :: g).length = k' - g.length := by
      simp only [List.length_cons]
      omega
    have e2 : chunkIndex + (x :: g).length = chunkIndex + 1 + g.length := by
      simp only [List.length_cons]
      omega
    rw [e1, e2]

theorem flagFF_bits (i : Nat) (hi : i < 8) : ((0xFF : Byte).val &&& (1 <<< i)) ≠ 0 := by
  interval_cases i <;> decide

theorem litEncodeAux_nil (n : Nat) : litEncodeAux n [] = [] := by
  cases n <;> simp [litEncodeAux]

theorem litEncodeAux_cons (n : Nat) (b : Bytes) (h : b ≠ []) :
    litEncodeAux (n + 1) b = (0xFF : Byte) :: (b.take 8 ++ litEncodeAux n (b.drop 8)) := by
  rw [litEncodeAux, if_neg h]

theorem length_litEncodeAux (n : Nat) :
    ∀ b : Bytes, b.length ≤ n → (litEncodeAux n b).length = b.length + (b.length + 7) / 8 := by
  induction n with
  | zero =>
    intro b hb
    have : b = [] := List.length_eq_zero.mp (by omega)
    subst this
    rfl
  | succ n ih =>
    intro b hb
    by_cases hnil : b = []
    · subst hnil
      rw [litEncodeAux_nil]
      rfl
    · have hpos : 0 < b.length := List.length_pos.mpr hnil
      rw [litEncodeAux_cons n b hnil, List.length_cons, List.length_append,
        ih (b.drop 8) (by rw [List.length_drop]; omega), List.length_take, List.length_drop]
      omega

/-- The outer loop on a literal-only stream: it stops, with the bytes `b` appended to the
output and the status as before. -/
theorem lzLoop_litEncode (n : Nat) :
    ∀ (b pre : Bytes) (s : LzState) (fuel : Nat), b.length ≤ n → s.inputPos = pre.length →
      (pre ++ litEncodeAux n b).length < 65536 → b.length ≤ fuel →
      ∃ s', lzLoop (pre ++ litEncodeAux n b) fuel s = some s' ∧ s'.out = s.out ++ b ∧
        s'.status = s.status := by
  induction n with
  | zero =>
    intro b pre s fuel hb hs _ _
    have : b = [] := List.length_eq_zero.mp (by omega)
    subst this
    refine ⟨s, lzLoop_stop _ _ _ ?_, by simp, rfl⟩
    simp [litEncodeAux, hs]
  | succ n ih =>
    intro b pre s fuel hb hs hl hf
    by_cases hnil : b = []
    · subst hnil
      refine ⟨s, lzLoop_stop _ _ _ ?_, by simp, rfl⟩
      simp [litEncodeAux, hs]
    · have hbpos : 0 < b.length := List.length_pos.mpr hnil
      obtain ⟨f, rfl⟩ : ∃ f, fuel = f + 1 := ⟨fuel - 1, by omega⟩
      rw [litEncodeAux_cons n b hnil] at hl ⊢
      have hc : pre ++ (0xFF : Byte) :: (b.take 8 ++ litEncodeAux n (b.drop 8)) =
          (pre ++ [0xFF]) ++ b.take 8 ++ litEncodeAux n (b.drop 8) := by simp
      have hlen : (pre ++ (0xFF : Byte) :: (b.take 8 ++ litEncodeAux n (b.drop 8))).length =
          pre.length + 1 + (b.take 8).length + (litEncodeAux n (b.drop 8)).length := by
        simp
        omega
      have htake : (b.take 8).length = min 8 b.length := List.length_take _ _
      have hflag : byteAt (pre ++ (0xFF : Byte) :: (b.take 8 ++ litEncodeAux n (b.drop 8)))
          s.inputPos = 0xFF := by
        rw [hs]
        exact byteAt_append_cons pre _ _
      have h1 : incU16 s.inputPos = (pre ++ [(0xFF : Byte)]).length := by
        rw [incU16_of_lt (by omega), hs]
        simp
      have hgroup : lzGroup (pre ++ (0xFF : Byte) :: (b.take 8 ++ litEncodeAux n (b.drop 8))) s =
          litRun { s with inputPos := incU16 s.inputPos } (b.take 8) := by
        unfold lzGroup
        rw [hflag, hc, lzChunks_literals (0xFF : Byte) _ (b.take 8) (pre ++ [0xFF]) 8 0 _ h1
          (by rw [← hc]; exact hl) (fun i hi => flagFF_bits _ (by omega)) (by omega) (by omega)]
        by_cases h8 : (b.take 8).length = 8
        · rw [h8]
          rfl
        · apply lzChunks_stop
          have hdrop : b.drop 8 = [] := List.drop_eq_nil_of_le (by omega)
          rw [litRun_inputPos _ _ (by show incU16 s.inputPos + _ < 65536; rw [h1]; simp; omega)]
          show _ ≤ incU16 s.inputPos + _
          rw [h1, hdrop, litEncodeAux_nil]
          simp
          omega
      rw [lzLoop_succ, if_pos (by omega), hgroup]
      have hc2 : pre ++ (0xFF : Byte) :: (b.take 8 ++ litEncodeAux n (b.drop 8)) =
          (pre ++ (0xFF : Byte) :: b.take 8) ++ litEncodeAux n (b.drop 8) := by simp
      rw [hc2]
      have hpos2 : (litRun { s with inputPos := incU16 s.inputPos } (b.take 8)).inputPos =
          (pre ++ (0xFF : Byte) :: b.take 8).length := by
        rw [litRun_inputPos _ _ (by show incU16 s.inputPos + _ < 65536; rw [h1]; simp; omega)]
        show incU16 s.inputPos + _ = _
        rw [h1]
        simp
        omega
      obtain ⟨s', hrun, hout, hst⟩ := ih (b.drop 8) (pre ++ (0xFF : Byte) :: b.take 8)
        (litRun { s with inputPos := incU16 s.inputPos } (b.take 8)) f
        (by rw [List.length_drop]; omega) hpos2 (by rw [← hc2]; exact hl)
        (by rw [List.length_drop]; omega)
      refine ⟨s', hrun, ?_, ?_⟩
      · rw [hout, litRun_out, List.append_assoc, List.take_append_drop]
      · rw [hst, litRun_status]

theorem ringNext_of_lt {p : Nat} (h : p + 1 < 4096) : ringNext p = p + 1 := by
  unfold ringNext incU16 LZ_RINGBUF_SIZE
  rw [if_neg (by omega)]
  omega

theorem ringNext_mod {p : Nat} (h : p < 4096) : ringNext p = (p + 1) % 4096 := by
  unfold ringNext incU16 LZ_RINGBUF_SIZE
  by_cases h1 : p + 1 < 4096
  · rw [if_neg (by omega)]
    omega
  · rw [if_pos (by omega)]
    omega

theorem litRun_bufPos (g : Bytes) :
    ∀ s : LzState, s.bufPos + g.length < 4096 → (litRun s g).bufPos = s.bufPos + g.length := by
  induction g with
  | nil => intro s _; rfl
  | cons x g ih =>
    intro s h
    simp only [List.length_cons] at h
    have h1 : (litStep s x).bufPos = s.bufPos + 1 := ringNext_of_lt (by omega)
    rw [litRun_cons, ih _ (by rw [h1]; omega), h1, List.length_cons]
    omega

theorem litRun_ring_below (g : Bytes) :
    ∀ (s : LzState) (p : Nat), p < s.bufPos → s.bufPos + g.length < 4096 →
      (litRun s g).ring p = s.ring p := by
  induction g with
  | nil => intro s p _ _; rfl
  | cons x g ih =>
    intro s p hp h
    simp only [List.length_cons] at h
    have h1 : (litStep s x).bufPos = s.bufPos + 1 := ringNext_of_lt (by omega)
    rw [litRun_cons, ih _ p (by rw [h1]; omega) (by rw [h1]; omega)]
    show ringSet s.ring s.bufPos x p = s.ring p
    unfold ringSet
    rw [if_neg (by omega)]

theorem litRun_ring (g : Bytes) :
    ∀ (s : LzState) (i : Nat), s.bufPos + g.length < 4096 → i < g.length →
      (litRun s g).ring (s.bufPos + i) = g.getD i 0 := by
  induction g with
  | nil =>
    intro s i _ hi
    simp at hi
  | cons x g ih =>
    intro s i h hi
    simp only [List.length_cons] at h hi
    have h1 : (litStep s x).bufPos = s.bufPos + 1 := ringNext_of_lt (by omega)
    rw [litRun_cons]
    cases i with
    | zero =>
      rw [Nat.add_zero, litRun_ring_below g _ _ (by rw [h1]; omega) (by rw [h1]; omega)]
      show ringSet s.ring s.bufPos x s.bufPos = _
      simp [ringSet]
    | succ i =>
      have := ih (litStep s x) i (by rw [h1]; omega) (by omega)
      rw [h1] at this
      rw [show s.bufPos + (i + 1) = s.bufPos + 1 + i by omega, this]
      rfl

theorem lzCopy_succ (chunkSize n idx src : Nat) (s : LzState) :
    lzCopy chunkSize (n + 1) idx src s =
      if idx < chunkSize then
        lzCopy chunkSize n (idx + 1) (ringNext src)
          { s with
            out := s.out ++ [s.ring src]
            ring := ringSet s.ring s.bufPos (s.ring src)
            bufPos := ringNext s.bufPos }
      else (idx, s) := rfl

/-- The copy loop of a back-reference to ring position 0xFEE (4078), entered when the
ring holds the bytes `lits` from that position on and the write cursor stands behind
them: the loop appends the bytes `lits[j mod k]`, also when it reads positions that it
has written itself. -/
theorem lzCopy_periodic (lits : Bytes) (len : Nat) (hk : 0 < lits.length)
    (hsmall : lits.length + len ≤ 4096) :
    ∀ (n j src : Nat) (s : LzState), j + n = len → src = (4078 + j) % 4096 →
      s.bufPos = (4078 + lits.length + j) % 4096 →
      (∀ i, i < lits.length + j → s.ring ((4078 + i) % 4096) = lits.getD (i % lits.length) 0) →
      (lzCopy len n j src s).1 = len ∧
      (lzCopy len n j src s).2.out =
        s.out ++ (List.range' j n).map (fun i => lits.getD (i % lits.length) 0) ∧
      (lzCopy len n j src s).2.status = s.status ∧
      (lzCopy len n j src s).2.inputPos = s.inputPos := by
  intro n
  induction n with
  | zero =>
    intro j src s hj _ _ _
    refine ⟨by simpa [lzCopy] using hj, by simp [lzCopy], rfl, rfl⟩
  | succ n ih =>
    intro j src s hj hsrc hbuf hring
    have hd : s.ring src = lits.getD (j % lits.length) 0 := by
      rw [hsrc]
      exact hring j (by omega)
    rw [lzCopy_succ, if_pos (by omega)]
    have hstep := ih (j + 1) (ringNext src)
      { s with
        out := s.out ++ [s.ring src]
        ring := ringSet s.ring s.bufPos (s.ring src)
        bufPos := ringNext s.bufPos }
      (by omega)
      (by rw [ringNext_mod (by omega), hsrc]; omega)
      (by
        show ringNext s.bufPos = _
        rw [ringNext_mod (by omega), hbuf]
        omega)
      (by
        intro i hi
        show ringSet s.ring s.bufPos (s.ring src) ((4078 + i) % 4096) = _
        unfold ringSet
        by_cases hi2 : i = lits.length + j
        · rw [if_pos (by rw [hbuf, hi2]; omega), hd, hi2, Nat.add_mod_left]
        · rw [if_neg (by rw [hbuf]; omega)]
          exact hring i (by omega))
    obtain ⟨h1, h2, h3, h4⟩ := hstep
    refine ⟨h1, ?_, h3, h4⟩
    rw [h2, hd, List.range'_succ]
    simp

theorem backrefByte1_decode (len : Nat) (h3 : 3 ≤ len) (h18 : len ≤ 18) :
    (((backrefByte1 len).val &&& 0xF0) >>> 4) + 3 = len ∧
      ((((backrefByte1 len).val &&& 0x0F) <<< 8) ||| (0xEE : Byte).val) % 65536 = 4078 := by
  interval_cases len <;> decide

theorem lzCopy_fst_status (chunkSize : Nat) :
    ∀ (n idx src : Nat) (s : LzState), idx + n = chunkSize →
      (lzCopy chunkSize n idx src s).1 = chunkSize ∧
        (lzCopy chunkSize n idx src s).2.status = s.status := by
  intro n
  induction n with
  | zero =>
    intro idx src s h
    exact ⟨by simpa [lzCopy] using h, rfl⟩
  | succ n ih =>
    intro idx src s h
    rw [lzCopy_succ, if_pos (by omega)]
    exact ih _ _ _ (by omega)

theorem lzChunk_status (c : Bytes) (flagByte : Byte) (chunkIndex : Nat) (s : LzState) :
    (lzChunk c flagByte chunkIndex s).status = s.status := by
  unfold lzChunk
  split
  · rfl
  · dsimp only
    have h := lzCopy_fst_status
      (((byteAt c (incU16 s.inputPos)).val &&& 0xF0) >>> 4 + 3)
      (((byteAt c (incU16 s.inputPos)).val &&& 0xF0) >>> 4 + 3) 0
      ((((byteAt c (incU16 s.inputPos)).val &&& 0x0F) <<< 8 ||| (byteAt c s.inputPos).val) % 65536)
      { s with inputPos := incU16 (incU16 s.inputPos) } (Nat.zero_add _)
    rw [if_neg (Nat.not_lt.mpr (Nat.le_of_eq h.1.symm))]
    exact h.2

theorem lzChunks_status (c : Bytes) (flagByte : Byte) :
    ∀ (n chunkIndex : Nat) (s : LzState),
      (lzChunks c flagByte n chunkIndex s).status = s.status := by
  intro n
  induction n with
  | zero => intro chunkIndex s; rfl
  | succ n ih =>
    intro chunkIndex s
    rw [lzChunks_succ]
    split
    · rw [ih, lzChunk_status]
    · rfl

/-- The status of `lzDecompress` is never set to `false`: the test of line 311 follows a
loop that ends with `byteIndexInChunk = chunkSize`. -/
theorem lzLoop_status (c : Bytes) :
    ∀ (fuel : Nat) (s s' : LzState), lzLoop c fuel s = some s' → s'.status = s.status := by
  intro fuel
  induction fuel with
  | zero =>
    intro s s' h
    unfold lzLoop at h
    split at h
    · cases h
    · cases h
      rfl
  | succ f ih =>
    intro s s' h
    rw [lzLoop_succ] at h
    split at h
    · rw [ih _ _ h]
      exact lzChunks_status c _ 8 0 _
    · cases h
      rfl

/-! ### Independence of the ring buffer left by earlier calls -/

theorem ringNext_lt (p : Nat) : ringNext p < 4096 := by
  unfold ringNext LZ_RINGBUF_SIZE
  split
  · omega
  · omega

theorem chunkSource_lt (a b : Byte) :
    (((a.val &&& 0x0F) <<< 8) ||| b.val) % 65536 < 4096 := by
  have h1 : a.val &&& 0x0F ≤ 0x0F := Nat.and_le_right
  have h2 : (a.val &&& 0x0F) <<< 8 < 2 ^ 12 := by
    rw [Nat.shiftLeft_eq]
    omega
  have h3 : b.val < 2 ^ 12 := by
    have := b.isLt
    omega
  have h4 : ((a.val &&& 0x0F) <<< 8) ||| b.val < 2 ^ 12 := Nat.or_lt_two_pow h2 h3
  omega

theorem lzCopy_sim (chunkSize : Nat) :
    ∀ (n idx src : Nat) (s t : LzState), src < 4096 → LzSim s t →
      (lzCopy chunkSize n idx src s).1 = (lzCopy chunkSize n idx src t).1 ∧
        LzSim (lzCopy chunkSize n idx src s).2 (lzCopy chunkSize n idx src t).2 := by
  intro n
  induction n with
  | zero =>
    intro idx src s t _ h
    exact ⟨rfl, h⟩
  | succ n ih =>
    intro idx src s t hsrc h
    obtain ⟨hb, hi, ho, hst, hlt, hr⟩ := h
    rw [lzCopy_succ, lzCopy_succ]
    by_cases hc : idx < chunkSize
    · rw [if_pos hc, if_pos hc]
      apply ih _ _ _ _ (ringNext_lt src)
      refine ⟨?_, hi, ?_, hst, ringNext_lt _, ?_⟩
      · show ringNext s.bufPos = ringNext t.bufPos
        rw [hb]
      · show s.out ++ [s.ring src] = t.out ++ [t.ring src]
        rw [ho, hr src hsrc]
      · intro i hi4
        show ringSet s.ring s.bufPos (s.ring src) i = ringSet t.ring t.bufPos (t.ring src) i
        unfold ringSet
        rw [hb, hr src hsrc, hr i hi4]
    · rw [if_neg hc, if_neg hc]
      exact ⟨rfl, hb, hi, ho, hst, hlt, hr⟩

theorem lzChunk_sim (c : Bytes) (flagByte : Byte) (chunkIndex : Nat) (s t : LzState)
    (h : LzSim s t) : LzSim (lzChunk c flagByte chunkIndex s) (lzChunk c flagByte chunkIndex t) := by
  obtain ⟨hb, hi, ho, hst, hlt, hr⟩ := h
  unfold lzChunk
  by_cases hf : (flagByte.val &&& (1 <<< chunkIndex)) ≠ 0
  · rw [if_pos hf, if_pos hf]
    refine ⟨?_, ?_, ?_, hst, ringNext_lt _, ?_⟩
    · show ringNext s.bufPos = ringNext t.bufPos
      rw [hb]
    · show incU16 s.inputPos = incU16 t.inputPos
      rw [hi]
    · show s.out ++ [byteAt c s.inputPos] = t.out ++ [byteAt c t.inputPos]
      rw [ho, hi]
    · intro i hi4
      show ringSet s.ring s.bufPos (byteAt c s.inputPos) i =
        ringSet t.ring t.bufPos (byteAt c t.inputPos) i
      unfold ringSet
      rw [hb, hi, hr i hi4]
  · rw [if_neg hf, if_neg hf]
    dsimp only
    rw [← hi]
    have hsim := lzCopy_sim
      (((byteAt c (incU16 s.inputPos)).val &&& 0xF0) >>> 4 + 3)
      (((byteAt c (incU16 s.inputPos)).val &&& 0xF0) >>> 4 + 3) 0
      ((((byteAt c (incU16 s.inputPos)).val &&& 0x0F) <<< 8 ||| (byteAt c s.inputPos).val) % 65536)
      { s with inputPos := incU16 (incU16 s.inputPos) }
      { t with inputPos := incU16 (incU16 s.inputPos) }
      (chunkSource_lt _ _) ⟨hb, rfl, ho, hst, hlt, hr⟩
    obtain ⟨h1, h2⟩ := hsim
    rw [← h1]
    split
    · obtain ⟨gb, gi, go, _, glt, gr⟩ := h2
      exact ⟨gb, gi, go, rfl, glt, gr⟩
    · exact h2

theorem lzChunks_sim (c : Bytes) (flagByte : Byte) :
    ∀ (n chunkIndex : Nat) (s t : LzState), LzSim s t →
      LzSim (lzChunks c flagByte n chunkIndex s) (lzChunks c flagByte n chunkIndex t) := by
  intro n
  induction n with
  | zero =>
    intro chunkIndex s t h
    exact h
  | succ n ih =>
    intro chunkIndex s t h
    rw [lzChunks_succ, lzChunks_succ, ← h.2.1]
    split
    · exact ih _ _ _ (lzChunk_sim c flagByte chunkIndex s t h)
    · exact h

theorem lzGroup_sim (c : Bytes) (s t : LzState) (h : LzSim s t) :
    LzSim (lzGroup c s) (lzGroup c t) := by
  obtain ⟨hb, hi, ho, hst, hlt, hr⟩ := h
  unfold lzGroup
  rw [← hi]
  exact lzChunks_sim c _ 8 0 _ _ ⟨hb, rfl, ho, hst, hlt, hr⟩

theorem lzLoop_sim (c : Bytes) :
    ∀ (fuel : Nat) (s t : LzState), LzSim s t →
      (lzLoop c fuel s).map (fun s => (s.status, s.out)) =
        (lzLoop c fuel t).map (fun s => (s.status, s.out)) := by
  intro fuel
  induction fuel with
  | zero =>
    intro s t h
    unfold lzLoop
    rw [← h.2.1]
    split
    · rfl
    · simp [h.2.2.1, h.2.2.2.1]
  | succ f ih =>
    intro s t h
    rw [lzLoop_succ, lzLoop_succ, ← h.2.1]
    split
    · exact ih _ _ (lzGroup_sim c s t h)
    · simp [h.2.2.1, h.2.2.2.1]

/-! ### Palette -/

theorem palLoop_eq (paldata : Bytes) :
    ∀ (n palByteIdx : Nat) (pal : List Nat), paldata.length - 3 - palByteIdx ≤ n →
      palLoop paldata n palByteIdx pal =
        pal ++ (List.range' palByteIdx (paldata.length - 3 - palByteIdx)).map (fun i =>
          qRgb (palChannel (byteAt paldata i)) (palChannel (byteAt paldata (i + 1)))
            (palChannel (byteAt paldata (i + 2)))) := by
  intro n
  induction n with
  | zero =>
    intro idx pal h
    have h0 : paldata.length - 3 - idx = 0 := by omega
    simp [palLoop, h0]
  | succ n ih =>
    intro idx pal h
    unfold palLoop
    by_cases hc : (idx : Int) < (paldata.length : Int) - 3
    · rw [if_pos hc, ih _ _ (by omega)]
      have h1 : paldata.length - 3 - idx = (paldata.length - 3 - (idx + 1)) + 1 := by omega
      rw [h1, List.range'_succ]
      simp
    · rw [if_neg hc]
      have h0 : paldata.length - 3 - idx = 0 := by omega
      simp [h0]

set_option maxRecDepth 100000 in
theorem palChannel_table :
    ∀ v : Byte, v.val ≤ 63 →
      palChannel v = ((4 * v.val + v.val / 16 : Nat) : Int) ∧
        (v.val <<< 2) ||| (v.val >>> 4) = 4 * v.val + v.val / 16 := by
  decide

theorem palChannel_eq (v : Byte) (hv : v.val ≤ 63) :
    palChannel v = ((4 * v.val + v.val / 16 : Nat) : Int) ∧
      (v.val <<< 2) ||| (v.val >>> 4) = 4 * v.val + v.val / 16 :=
  palChannel_table v hv

/-! ### Alien table -/

theorem rawRead_none (D : Bytes) (off len : Nat) (h0 : 0 < len) (h : D.length < off + len) :
    rawRead D off len = none := by
  unfold rawRead
  rw [if_neg (by omega), if_neg (by omega)]

theorem rawRead_some (D : Bytes) (off len : Nat) (h0 : 0 < len) (h : off + len ≤ D.length) :
    rawRead D off len = some ((D.drop off).take len) := by
  unfold rawRead
  rw [if_neg (by omega), if_pos h]

/-! ### Image decoding -/

theorem getPixelLocation_inj (w p o : Nat) (_hw : 0 < w)
    (h : getPixelLocation w p = getPixelLocation w o) : p = o := by
  unfold getPixelLocation at h
  have h1 : p % w = o % w := congrArg Prod.fst h
  have h2 : p / w = o / w := congrArg Prod.snd h
  have hp := Nat.div_add_mod p w
  have ho := Nat.div_add_mod o w
  rw [h1, h2] at hp
  omega

theorem Untouched.refl (w h c : Nat) (img : Image) : Untouched w h c img img :=
  ⟨fun _ _ => rfl, fun _ _ => rfl⟩

theorem Untouched.trans {w h c1 c2 : Nat} {a b c : Image} (h1 : Untouched w h c1 a b)
    (h2 : Untouched w h c2 b c) (hle : c1 ≤ c2) : Untouched w h c2 a c :=
  ⟨fun p hp => by rw [h2.1 p hp, h1.1 p (by omega)],
   fun q hq => by rw [h2.2 q hq, h1.2 q hq]⟩

theorem setPixel_untouched (w h cc : Nat) (img : Image) (o v : Nat) :
    Untouched w h (o + 1) img (setPixel w h cc img (getPixelLocation w o) v) := by
  unfold setPixel
  split
  · rename_i hc
    have hw : 0 < w := by omega
    constructor
    · intro p hp
      have hne : getPixelLocation w p ≠ getPixelLocation w o := by
        intro he
        have := getPixelLocation_inj w p o hw he
        omega
      show (if getPixelLocation w p = getPixelLocation w o then _ else _) = _
      rw [if_neg hne]
    · intro q hq
      have hne : q ≠ getPixelLocation w o := by
        intro he
        rw [he] at hq
        exact hq ⟨hc.1, hc.2.1⟩
      show (if q = getPixelLocation w o then _ else _) = _
      rw [if_neg hne]
  · exact Untouched.refl w h _ img

theorem fillRun_succ (w h cc : Nat) (pc : Int) (v : Nat) (e : Int) (n o : Nat) (img : Image) :
    fillRun w h cc pc v e (n + 1) o img =
      if (o : Int) < e ∧ (o : Int) < pc then
        fillRun w h cc pc v e n (o + 1) (setPixel w h cc img (getPixelLocation w o) v)
      else (o, img) := rfl

theorem fillRun_spec (w h cc : Nat) (pc : Int) (v : Nat) (e : Int) :
    ∀ (n o : Nat) (img : Image),
      o ≤ (fillRun w h cc pc v e n o img).1 ∧
      ((fillRun w h cc pc v e n o img).1 = o ∨ ((fillRun w h cc pc v e n o img).1 : Int) ≤ pc) ∧
      Untouched w h (fillRun w h cc pc v e n o img).1 img (fillRun w h cc pc v e n o img).2 := by
  intro n
  induction n with
  | zero =>
    intro o img
    exact ⟨Nat.le_refl _, Or.inl rfl, Untouched.refl w h _ img⟩
  | succ n ih =>
    intro o img
    rw [fillRun_succ]
    by_cases hc : (o : Int) < e ∧ (o : Int) < pc
    · rw [if_pos hc]
      obtain ⟨h1, h2, h3⟩ := ih (o + 1) (setPixel w h cc img (getPixelLocation w o) v)
      refine ⟨by omega, ?_, (setPixel_untouched w h cc img o v).trans h3 h1⟩
      rcases h2 with h2 | h2
      · right
        rw [h2]
        push_cast
        omega
      · exact Or.inr h2
    · rw [if_neg hc]
      exact ⟨Nat.le_refl _, Or.inl rfl, Untouched.refl w h _ img⟩

theorem literalRun_succ (data : Bytes) (w h cc : Nat) (pc e : Int) (n i o : Nat) (img : Image) :
    literalRun data w h cc pc e (n + 1) i o img =
      if wrap32 ((o : Int) + e) ≠ 0 ∧ (o : Int) < pc ∧ i < data.length then
        literalRun data w h cc pc e n (i + 1) (o + 1)
          (setPixel w h cc img (getPixelLocation w o) (charToUInt (byteAt data i)))
      else (i, o, img) := rfl

theorem literalRun_spec (data : Bytes) (w h cc : Nat) (pc e : Int) :
    ∀ (n i o : Nat) (img : Image),
      i ≤ (literalRun data w h cc pc e n i o img).1 ∧
      o ≤ (literalRun data w h cc pc e n i o img).2.1 ∧
      ((literalRun data w h cc pc e n i o img).2.1 = o ∨
        ((literalRun data w h cc pc e n i o img).2.1 : Int) ≤ pc) ∧
      Untouched w h (literalRun data w h cc pc e n i o img).2.1 img
        (literalRun data w h cc pc e n i o img).2.2 := by
  intro n
  induction n with
  | zero =>
    intro i o img
    exact ⟨Nat.le_refl _, Nat.le_refl _, Or.inl rfl, Untouched.refl w h _ img⟩
  | succ n ih =>
    intro i o img
    rw [literalRun_succ]
    by_cases hc : wrap32 ((o : Int) + e) ≠ 0 ∧ (o : Int) < pc ∧ i < data.length
    · rw [if_pos hc]
      obtain ⟨h0, h1, h2, h3⟩ := ih (i + 1) (o + 1)
        (setPixel w h cc img (getPixelLocation w o) (charToUInt (byteAt data i)))
      refine ⟨by omega, by omega, ?_, (setPixel_untouched w h cc img o _).trans h3 h1⟩
      rcases h2 with h2 | h2
      · right
        rw [h2]
        push_cast
        omega
      · exact Or.inr h2
    · rw [if_neg hc]
      exact ⟨Nat.le_refl _, Nat.le_refl _, Or.inl rfl, Untouched.refl w h _ img⟩

theorem rleStep_skip (data : Bytes) (w h cc : Nat) (pc : Int) (s : RleState)
    (h1 : ((byteAt data s.inputpos).val &&& 0x80) ≠ 0) :
    rleStep data w h cc pc s =
      { inputpos := s.inputpos + 1,
        outputpos := (fillRun w h cc pc 0x00
          (wrap32 ((s.outputpos : Int) + (((byteAt data s.inputpos).val &&& 0x7F : Nat) : Int)))
          127 s.outputpos s.img).1,
        img := (fillRun w h cc pc 0x00
          (wrap32 ((s.outputpos : Int) + (((byteAt data s.inputpos).val &&& 0x7F : Nat) : Int)))
          127 s.outputpos s.img).2 } := by
  unfold rleStep
  rw [if_pos h1]

theorem rleStep_repeat (data : Bytes) (w h cc : Nat) (pc : Int) (s : RleState)
    (h1 : ¬((byteAt data s.inputpos).val &&& 0x80) ≠ 0)
    (h2 : ((byteAt data s.inputpos).val &&& 0x40) ≠ 0)
    (h3 : s.inputpos + 1 < data.length) :
    rleStep data w h cc pc s =
      { inputpos := s.inputpos + 1 + 1,
        outputpos := (fillRun w h cc pc (charToUInt (byteAt data (s.inputpos + 1)))
          (wrap32 ((s.outputpos : Int) + (((byteAt data s.inputpos).val &&& 0x7F : Nat) : Int)))
          127 s.outputpos s.img).1,
        img := (fillRun w h cc pc (charToUInt (byteAt data (s.inputpos + 1)))
          (wrap32 ((s.outputpos : Int) + (((byteAt data s.inputpos).val &&& 0x7F : Nat) : Int)))
          127 s.outputpos s.img).2 } := by
  unfold rleStep
  rw [if_neg h1, if_pos h2, if_pos h3]

theorem rleStep_repeat_dry (data : Bytes) (w h cc : Nat) (pc : Int) (s : RleState)
    (h1 : ¬((byteAt data s.inputpos).val &&& 0x80) ≠ 0)
    (h2 : ((byteAt data s.inputpos).val &&& 0x40) ≠ 0)
    (h3 : ¬s.inputpos + 1 < data.length) :
    rleStep data w h cc pc s =
      { inputpos := s.inputpos + 1 + 1, outputpos := s.outputpos, img := s.img } := by
  unfold rleStep
  rw [if_neg h1, if_pos h2, if_neg h3]

theorem rleStep_literal (data : Bytes) (w h cc : Nat) (pc : Int) (s : RleState)
    (h1 : ¬((byteAt data s.inputpos).val &&& 0x80) ≠ 0)
    (h2 : ¬((byteAt data s.inputpos).val &&& 0x40) ≠ 0) :
    rleStep data w h cc pc s =
      { inputpos := (literalRun data w h cc pc
          (wrap32 ((s.outputpos : Int) + ((byteAt data s.inputpos).val : Int)))
          data.length (s.inputpos + 1) s.outputpos s.img).1,
        outputpos := (literalRun data w h cc pc
          (wrap32 ((s.outputpos : Int) + ((byteAt data s.inputpos).val : Int)))
          data.length (s.inputpos + 1) s.outputpos s.img).2.1,
        img := (literalRun data w h cc pc
          (wrap32 ((s.outputpos : Int) + ((byteAt data s.inputpos).val : Int)))
          data.length (s.inputpos + 1) s.outputpos s.img).2.2 } := by
  unfold rleStep
  rw [if_neg h1, if_neg h2]

theorem rleState_spec_of (w h : Nat) (pc : Int) (s : RleState) (i o : Nat) (img : Image)
    (h0 : s.inputpos < i) (h1 : s.outputpos ≤ o) (h2 : o = s.outputpos ∨ (o : Int) ≤ pc)
    (h3 : Untouched w h o s.img img) :
    s.inputpos < ({ inputpos := i, outputpos := o, img := img } : RleState).inputpos ∧
    s.outputpos ≤ ({ inputpos := i, outputpos := o, img := img } : RleState).outputpos ∧
    (({ inputpos := i, outputpos := o, img := img } : RleState).outputpos = s.outputpos ∨
      ((({ inputpos := i, outputpos := o, img := img } : RleState).outputpos : Nat) : Int) ≤ pc) ∧
    Untouched w h ({ inputpos := i, outputpos := o, img := img } : RleState).outputpos s.img
      ({ inputpos := i, outputpos := o, img := img } : RleState).img :=
  ⟨h0, h1, h2, h3⟩

theorem rleStep_spec (data : Bytes) (w h cc : Nat) (pc : Int) (s : RleState) :
    s.inputpos < (rleStep data w h cc pc s).inputpos ∧
    s.outputpos ≤ (rleStep data w h cc pc s).outputpos ∧
    ((rleStep data w h cc pc s).outputpos = s.outputpos ∨
      ((rleStep data w h cc pc s).outputpos : Int) ≤ pc) ∧
    Untouched w h (rleStep data w h cc pc s).outputpos s.img (rleStep data w h cc pc s).img := by
  by_cases h1 : ((byteAt data s.inputpos).val &&& 0x80) ≠ 0
  · rw [rleStep_skip data w h cc pc s h1]
    have hf := fillRun_spec w h cc pc 0x00
      (wrap32 ((s.outputpos : Int) + (((byteAt data s.inputpos).val &&& 0x7F : Nat) : Int)))
      127 s.outputpos s.img
    generalize fillRun w h cc pc 0x00
      (wrap32 ((s.outputpos : Int) + (((byteAt data s.inputpos).val &&& 0x7F : Nat) : Int)))
      127 s.outputpos s.img = r at hf ⊢
    exact rleState_spec_of w h pc s _ _ _ (Nat.lt_succ_self _) hf.1 hf.2.1 hf.2.2
  · by_cases h2 : ((byteAt data s.inputpos).val &&& 0x40) ≠ 0
    · by_cases h3 : s.inputpos + 1 < data.length
      · rw [rleStep_repeat data w h cc pc s h1 h2 h3]
        have hf := fillRun_spec w h cc pc (charToUInt (byteAt data (s.inputpos + 1)))
          (wrap32 ((s.outputpos : Int) + (((byteAt data s.inputpos).val &&& 0x7F : Nat) : Int)))
          127 s.outputpos s.img
        generalize fillRun w h cc pc (charToUInt (byteAt data (s.inputpos + 1)))
          (wrap32 ((s.outputpos : Int) + (((byteAt data s.inputpos).val &&& 0x7F : Nat) : Int)))
          127 s.outputpos s.img = r at hf ⊢
        exact rleState_spec_of w h pc s _ _ _ (Nat.lt_succ_of_lt (Nat.lt_succ_self _))
          hf.1 hf.2.1 hf.2.2
      · rw [rleStep_repeat_dry data w h cc pc s h1 h2 h3]
        exact rleState_spec_of w h pc s _ _ _ (Nat.lt_succ_of_lt (Nat.lt_succ_self _))
          (Nat.le_refl _) (Or.inl rfl) (Untouched.refl w h _ _)
    · rw [rleStep_literal data w h cc pc s h1 h2]
      have hf := literalRun_spec data w h cc pc
        (wrap32 ((s.outputpos : Int) + ((byteAt data s.inputpos).val : Int)))
        data.length (s.inputpos + 1) s.outputpos s.img
      generalize literalRun data w h cc pc
        (wrap32 ((s.outputpos : Int) + ((byteAt data s.inputpos).val : Int)))
        data.length (s.inputpos + 1) s.outputpos s.img = r at hf ⊢
      exact rleState_spec_of w h pc s _ _ _ (Nat.lt_of_lt_of_le (Nat.lt_succ_self _) hf.1)
        hf.2.1 hf.2.2.1 hf.2.2.2

theorem rleLoop_succ (data : Bytes) (w h cc : Nat) (pc : Int) (n : Nat) (s : RleState) :
    rleLoop data w h cc pc (n + 1) s =
      if s.inputpos < data.length ∧ (s.outputpos : Int) < pc then
        rleLoop data w h cc pc n (rleStep data w h cc pc s)
      else s := rfl

theorem rleLoop_spec (data : Bytes) (w h cc : Nat) (pc : Int) :
    ∀ (n : Nat) (s : RleState),
      s.outputpos ≤ (rleLoop data w h cc pc n s).outputpos ∧
      ((rleLoop data w h cc pc n s).outputpos = s.outputpos ∨
        ((rleLoop data w h cc pc n s).outputpos : Int) ≤ pc) ∧
      Untouched w h (rleLoop data w h cc pc n s).outputpos s.img
        (rleLoop data w h cc pc n s).img ∧
      (data.length ≤ n + s.inputpos →
        ¬((rleLoop data w h cc pc n s).inputpos < data.length ∧
          ((rleLoop data w h cc pc n s).outputpos : Int) < pc)) := by
  intro n
  induction n with
  | zero =>
    intro s
    refine ⟨Nat.le_refl _, Or.inl rfl, Untouched.refl w h _ _, ?_⟩
    intro hl hc
    have : s.inputpos < data.length := hc.1
    omega
  | succ n ih =>
    intro s
    rw [rleLoop_succ]
    by_cases hc : s.inputpos < data.length ∧ (s.outputpos : Int) < pc
    · rw [if_pos hc]
      obtain ⟨g0, g1, g2, g3⟩ := rleStep_spec data w h cc pc s
      obtain ⟨h1, h2, h3, h4⟩ := ih (rleStep data w h cc pc s)
      refine ⟨by omega, ?_, g3.trans h3 h1, fun hl => h4 (by omega)⟩
      rcases h2 with h2 | h2
      · rcases g2 with g2 | g2
        · left
          rw [h2, g2]
        · right
          rw [h2]
          exact g2
      · exact Or.inr h2
    · rw [if_neg hc]
      exact ⟨Nat.le_refl _, Or.inl rfl, Untouched.refl w h _ _, fun _ => hc⟩

theorem wrap32_le (x : Nat) : wrap32 (x : Int) ≤ (x : Int) := by
  unfold wrap32
  omega

theorem wrap32_of_small (x : Int) (h0 : 0 ≤ x) (h1 : x < 2 ^ 31) : wrap32 x = x := by
  unfold wrap32
  omega

theorem literalRun_cursor (data : Bytes) (w h cc P : Nat) (e : Int) (he0 : 0 < e)
    (he : e + (P : Int) < 2 ^ 31) :
    ∀ (n i o : Nat) (img : Image), o ≤ P → data.length - i ≤ n →
      (literalRun data w h cc (P : Int) e n i o img).1 =
          i + min (P - o) (data.length - i) ∧
        (literalRun data w h cc (P : Int) e n i o img).2.1 =
          o + min (P - o) (data.length - i) := by
  intro n
  induction n with
  | zero =>
    intro i o img _ hn
    have hz : data.length - i = 0 := by omega
    rw [hz, Nat.min_zero]
    exact ⟨rfl, rfl⟩
  | succ n ih =>
    intro i o img ho hn
    rw [literalRun_succ]
    have hne : wrap32 ((o : Int) + e) ≠ 0 := by
      rw [wrap32_of_small _ (by omega) (by omega)]
      omega
    by_cases hc : o < P ∧ i < data.length
    · rw [if_pos ⟨hne, by exact_mod_cast hc.1, hc.2⟩]
      obtain ⟨h1, h2⟩ := ih (i + 1) (o + 1)
        (setPixel w h cc img (getPixelLocation w o) (charToUInt (byteAt data i)))
        (by omega) (by omega)
      rw [h1, h2]
      omega
    · rw [if_neg (by
        intro hh
        apply hc
        exact ⟨by exact_mod_cast hh.2.1, hh.2.2⟩)]
      have hz : min (P - o) (data.length - i) = 0 := by omega
      rw [hz]
      exact ⟨rfl, rfl⟩

theorem low_control_byte : ∀ c : Nat, c < 64 → (c &&& 0x80) = 0 ∧ (c &&& 0x40) = 0 := by
  decide

theorem rleState_cursor_of (i o : Nat) (img : Image) (a b : Nat) (h1 : o = a) (h2 : i = b) :
    ({ inputpos := i, outputpos := o, img := img } : RleState).outputpos = a ∧
      ({ inputpos := i, outputpos := o, img := img } : RleState).inputpos = b :=
  ⟨h1, h2⟩

/-! ### The output buffer as a prefix -/

theorem lzCopy_prependOut (P : Bytes) (chunkSize : Nat) :
    ∀ (n idx src : Nat) (s : LzState),
      lzCopy chunkSize n idx src (prependOut P s) =
        ((lzCopy chunkSize n idx src s).1, prependOut P (lzCopy chunkSize n idx src s).2) := by
  intro n
  induction n with
  | zero =>
    intro idx src s
    rfl
  | succ n ih =>
    intro idx src s
    rw [lzCopy_succ, lzCopy_succ]
    by_cases hc : idx < chunkSize
    · rw [if_pos hc, if_pos hc, ← ih]
      congr 1
      simp [prependOut]
    · rw [if_neg hc, if_neg hc]

theorem lzChunk_prependOut (P : Bytes) (c : Bytes) (flagByte : Byte) (chunkIndex : Nat)
    (s : LzState) :
    lzChunk c flagByte chunkIndex (prependOut P s) =
      prependOut P (lzChunk c flagByte chunkIndex s) := by
  unfold lzChunk
  by_cases hf : (flagByte.val &&& (1 <<< chunkIndex)) ≠ 0
  · rw [if_pos hf, if_pos hf]
    simp [prependOut]
  · rw [if_neg hf, if_neg hf]
    dsimp only
    have hpos : (prependOut P s).inputPos = s.inputPos := rfl
    rw [hpos]
    have hst : ({ prependOut P s with inputPos := incU16 (incU16 s.inputPos) } : LzState) =
        prependOut P { s with inputPos := incU16 (incU16 s.inputPos) } := rfl
    rw [hst, lzCopy_prependOut]
    dsimp only
    split
    · rfl
    · rfl

theorem lzChunks_prependOut (P : Bytes) (c : Bytes) (flagByte : Byte) :
    ∀ (n chunkIndex : Nat) (s : LzState),
      lzChunks c flagByte n chunkIndex (prependOut P s) =
        prependOut P (lzChunks c flagByte n chunkIndex s) := by
  intro n
  induction n with
  | zero =>
    intro chunkIndex s
    rfl
  | succ n ih =>
    intro chunkIndex s
    rw [lzChunks_succ, lzChunks_succ]
    have hpos : (prependOut P s).inputPos = s.inputPos := rfl
    rw [hpos]
    split
    · rw [lzChunk_prependOut, ih]
    · rfl

theorem lzGroup_prependOut (P : Bytes) (c : Bytes) (s : LzState) :
    lzGroup c (prependOut P s) = prependOut P (lzGroup c s) := by
  unfold lzGroup
  have hpos : (prependOut P s).inputPos = s.inputPos := rfl
  rw [hpos]
  have hst : ({ prependOut P s with inputPos := incU16 s.inputPos } : LzState) =
      prependOut P { s with inputPos := incU16 s.inputPos } := rfl
  rw [hst, lzChunks_prependOut]

theorem lzLoop_prependOut (P : Bytes) (c : Bytes) :
    ∀ (fuel : Nat) (s : LzState),
      lzLoop c fuel (prependOut P s) = (lzLoop c fuel s).map (prependOut P) := by
  intro fuel
  induction fuel with
  | zero =>
    intro s
    unfold lzLoop
    have hpos : (prependOut P s).inputPos = s.inputPos := rfl
    rw [hpos]
    split
    · rfl
    · rfl
  | succ f ih =>
    intro s
    rw [lzLoop_succ, lzLoop_succ]
    have hpos : (prependOut P s).inputPos = s.inputPos := rfl
    rw [hpos]
    split
    · rw [lzGroup_prependOut, ih]
    · rfl

/-- The call with the output buffer `P` behaves as the call with the empty buffer, with
`P` put in front of the output; in particular one returns exactly when the other does. -/
theorem lzDecompress_prepend (fuel : Nat) (ring0 : Ring) (c P : Bytes) :
    lzDecompress fuel ring0 c P =
      (lzDecompress fuel ring0 c []).map (fun r => (r.1, P ++ r.2)) := by
  unfold lzDecompress
  have hinit : lzInit ring0 P = prependOut P (lzInit ring0 []) := by
    simp [lzInit, prependOut]
  rw [hinit, lzLoop_prependOut, Option.map_map, Option.map_map]
  rfl

/-! ### Progress of the input cursor -/

theorem lzChunk_inputPos (c : Bytes) (flagByte : Byte) (chunkIndex : Nat) (s : LzState) :
    (lzChunk c flagByte chunkIndex s).inputPos =
      if (flagByte.val &&& (1 <<< chunkIndex)) ≠ 0 then incU16 s.inputPos
      else incU16 (incU16 s.inputPos) := by
  unfold lzChunk
  by_cases hf : (flagByte.val &&& (1 <<< chunkIndex)) ≠ 0
  · rw [if_pos hf, if_pos hf]
  · rw [if_neg hf, if_neg hf]
    dsimp only
    split
    · show (lzCopy _ _ _ _ _).2.inputPos = _
      rw [lzCopy_inputPos]
    · rw [lzCopy_inputPos]

theorem lzChunks_inputPos (c : Bytes) (flagByte : Byte) :
    ∀ (n chunkIndex : Nat) (s : LzState),
      (lzChunks c flagByte n chunkIndex s).inputPos =
        chunksPos c.length flagByte n chunkIndex s.inputPos := by
  intro n
  induction n with
  | zero =>
    intro chunkIndex s
    rfl
  | succ n ih =>
    intro chunkIndex s
    rw [lzChunks_succ]
    unfold chunksPos
    split
    · rw [ih, lzChunk_inputPos]
    · rfl

theorem chunksPos_ge (len : Nat) (flagByte : Byte) (hlen : len ≤ 65534) :
    ∀ (n chunkIndex p : Nat), p ≤ chunksPos len flagByte n chunkIndex p := by
  intro n
  induction n with
  | zero =>
    intro chunkIndex p
    exact Nat.le_refl _
  | succ n ih =>
    intro chunkIndex p
    unfold chunksPos
    split
    · rename_i hc
      refine Nat.le_trans ?_ (ih _ _)
      unfold incU16
      split <;> omega
    · exact Nat.le_refl _

theorem lzGroup_inputPos_gt (c : Bytes) (s : LzState) (hlen : c.length ≤ 65534)
    (hs : s.inputPos < c.length) : s.inputPos < (lzGroup c s).inputPos := by
  unfold lzGroup
  rw [lzChunks_inputPos]
  have h := chunksPos_ge c.length (byteAt c s.inputPos) hlen 8 0 (incU16 s.inputPos)
  have h1 : incU16 s.inputPos = s.inputPos + 1 := incU16_of_lt (by omega)
  show s.inputPos < chunksPos c.length (byteAt c s.inputPos) 8 0 (incU16 s.inputPos)
  omega

/-- On an input of at most 65534 bytes the outer loop stops within as many iterations as
the input has bytes. -/
theorem lzLoop_returns (c : Bytes) (hlen : c.length ≤ 65534) :
    ∀ (fuel : Nat) (s : LzState), c.length ≤ fuel + s.inputPos →
      ∃ s', lzLoop c fuel s = some s' := by
  intro fuel
  induction fuel with
  | zero =>
    intro s h
    exact ⟨s, lzLoop_stop c 0 s (by omega)⟩
  | succ f ih =>
    intro s h
    rw [lzLoop_succ]
    by_cases hc : s.inputPos < c.length
    · rw [if_pos hc]
      have := lzGroup_inputPos_gt c s hlen hc
      exact ih _ (by omega)
    · rw [if_neg hc]
      exact ⟨s, rfl⟩

/-! ### An input of 65535 bytes on which the cursor wraps -/

theorem byteAt_replicate (n p : Nat) (x : Byte) (h : p < n) :
    byteAt (List.replicate n x) p = x := by
  simp [byteAt, List.getD_eq_getElem?_getD, List.getElem?_replicate, h]

theorem chunksPos_lit (len : Nat) (flagByte : Byte) (n chunkIndex p : Nat)
    (hci : chunkIndex < 8) (hp : p < len)
    (hbit : (flagByte.val &&& (1 <<< chunkIndex)) ≠ 0) :
    chunksPos len flagByte (n + 1) chunkIndex p =
      chunksPos len flagByte n (chunkIndex + 1) (incU16 p) := by
  rw [chunksPos, if_pos ⟨hci, hp⟩, if_pos hbit]

theorem chunksPos_ref (len : Nat) (flagByte : Byte) (n chunkIndex p : Nat)
    (hci : chunkIndex < 8) (hp : p < len)
    (hbit : (flagByte.val &&& (1 <<< chunkIndex)) = 0) :
    chunksPos len flagByte (n + 1) chunkIndex p =
      chunksPos len flagByte n (chunkIndex + 1) (incU16 (incU16 p)) := by
  rw [chunksPos, if_pos ⟨hci, hp⟩, if_neg (fun h => h hbit)]

theorem chunksPos_flag_one (p : Nat) (hp : p + 13 < 65535) :
    chunksPos 65535 1 8 0 p = (p + 15) % 65536 := by
  have e1 : incU16 p = p + 1 := incU16_of_lt (by omega)
  have e2 : ∀ k, k ≤ 12 → incU16 (p + k) = p + k + 1 := fun k hk => incU16_of_lt (by omega)
  rw [chunksPos_lit 65535 1 7 0 p (by decide) (by omega) (by decide), e1,
    chunksPos_ref 65535 1 6 1 (p + 1) (by decide) (by omega) (by decide),
    e2 1 (by omega), e2 2 (by omega),
    chunksPos_ref 65535 1 5 2 (p + 3) (by decide) (by omega) (by decide),
    e2 3 (by omega), e2 4 (by omega),
    chunksPos_ref 65535 1 4 3 (p + 5) (by decide) (by omega) (by decide),
    e2 5 (by omega), e2 6 (by omega),
    chunksPos_ref 65535 1 3 4 (p + 7) (by decide) (by omega) (by decide),
    e2 7 (by omega), e2 8 (by omega),
    chunksPos_ref 65535 1 2 5 (p + 9) (by decide) (by omega) (by decide),
    e2 9 (by omega), e2 10 (by omega),
    chunksPos_ref 65535 1 1 6 (p + 11) (by decide) (by omega) (by decide),
    e2 11 (by omega), e2 12 (by omega),
    chunksPos_ref 65535 1 0 7 (p + 13) (by decide) (by omega) (by decide)]
  show incU16 (incU16 (p + 13)) = _
  unfold incU16
  omega

theorem onesInput_length : onesInput.length = 65535 := by
  unfold onesInput
  rw [List.length_replicate]

theorem lzGroup_onesInput (s : LzState) (h16 : s.inputPos % 16 = 0)
    (hlt : s.inputPos < 65535) :
    (lzGroup onesInput s).inputPos % 16 = 0 ∧ (lzGroup onesInput s).inputPos < 65535 := by
  have hflag : byteAt onesInput s.inputPos = 1 := byteAt_replicate 65535 _ 1 hlt
  have h1 : incU16 s.inputPos = s.inputPos + 1 := incU16_of_lt (by omega)
  have hpos : (lzGroup onesInput s).inputPos = (s.inputPos + 1 + 15) % 65536 := by
    unfold lzGroup
    rw [lzChunks_inputPos, hflag, onesInput_length]
    show chunksPos 65535 1 8 0 (incU16 s.inputPos) = _
    rw [h1, chunksPos_flag_one _ (by omega)]
  rw [hpos]
  omega

/-- On `onesInput` the outer loop never stops: after each group `inputPos` is a multiple
of 16 below 65535; the last back-reference of the last group reads its second codeword
byte at index 65535 and the cursor wraps from 65534 to 0. -/
theorem lzLoop_onesInput :
    ∀ (fuel : Nat) (s : LzState), s.inputPos % 16 = 0 → s.inputPos < 65535 →
      lzLoop onesInput fuel s = none := by
  intro fuel
  induction fuel with
  | zero =>
    intro s _ hlt
    unfold lzLoop
    rw [if_pos (by rw [onesInput_length]; exact hlt)]
  | succ f ih =>
    intro s h16 hlt
    rw [lzLoop_succ, if_pos (by rw [onesInput_length]; exact hlt)]
    obtain ⟨g1, g2⟩ := lzGroup_onesInput s h16 hlt
    exact ih _ g1 g2

theorem lzDecompress_append_returns (c : Bytes) (fuel : Nat) (ring0 : Ring) (P : Bytes)
    (hlen : c.length ≤ 65534) (hfuel : c.length ≤ fuel) :
    ∃ st out, lzDecompress fuel ring0 c [] = some (st, out) ∧
      lzDecompress fuel ring0 c P = some (st, P ++ out) := by
  obtain ⟨s', h⟩ := lzLoop_returns c hlen fuel (lzInit ring0 [])
    (by show c.length ≤ fuel + 0; omega)
  have h0 : lzDecompress fuel ring0 c [] = some (s'.status, s'.out) := by
    unfold lzDecompress
    rw [h]
    rfl
  refine ⟨s'.status, s'.out, h0, ?_⟩
  rw [lzDecompress_prepend, h0]
  rfl

/-! ### Mission text -/

theorem getMissionTextBody_offset {α : Type} (readString : Bytes → Nat → α) (noText : α)
    (idx txt : Bytes) (id : Nat) (hslot : (id + 1) * 4 + 4 ≤ idx.length) :
    getMissionTextBody readString noText idx txt id =
      if toInt32 (le32 idx ((id + 1) * 4)) < (txt.length : Int) then
        if toInt32 (le32 idx ((id + 1) * 4)) < 0 then Run.outOfBounds
        else Run.ret (readString txt (toInt32 (le32 idx ((id + 1) * 4))).toNat)
      else Run.ret noText := by
  unfold getMissionTextBody
  dsimp only
  rw [rawRead_some idx _ 4 (by omega) hslot]
  dsimp only
  rw [le32_take_drop idx _ 4 0 (by omega), Nat.add_zero]

/-! ## Theorems on the archive access layer -/

/-- C1: for every record layout, archive `D` and index `n` whose directory record lies
inside `D`, if bit 0 of `flags_b` is clear and the declared offset plus compressed size
does not exceed the size of `D`, then `getFileAtIndex` returns `true` and the output
buffer holds exactly the bytes `D[offset .. offset + compressed_size)`, whatever it held
before.  (`D` is a `QByteArray`, so its size fits in an `int`.) -/
theorem getFileAtIndex_uncompressed (L : DatFileIndexLayout) (hL : L.WellFormed)
    (fuel : Nat) (ring0 : Ring) (D : Bytes) (n : Nat) (out : Bytes) (hD : D.length < 2 ^ 31)
    (hslot : 2 + (n + 1) * L.size ≤ D.length)
    (hflag : (entryFlagsB L D n &&& 0x1) = 0)
    (hslice : entryOffset L D n + entryCompressedSize L D n ≤ D.length) :
    getFileAtIndex L fuel ring0 D n out =
      Outcome.ret true ((D.drop (entryOffset L D n)).take (entryCompressedSize L D n)) := by
  rw [getFileAtIndex_of_slot L hL fuel ring0 D n out hD hslot,
    storedSlice_of_le D _ _ hD hslice]
  dsimp only
  rw [if_neg (fun h => h hflag)]

/-- Witness of C1: record 0 of `fooArchive`, output buffer holding one byte before. -/
theorem getFileAtIndex_uncompressed_witness :
    getFileAtIndex specLayout 0 (fun _ => 0) fooArchive 0 [9] =
      Outcome.ret true
        ((fooArchive.drop (entryOffset specLayout fooArchive 0)).take
          (entryCompressedSize specLayout fooArchive 0)) ∧
    (fooArchive.drop (entryOffset specLayout fooArchive 0)).take
        (entryCompressedSize specLayout fooArchive 0) = helloBytes :=
  ⟨getFileAtIndex_uncompressed specLayout (by decide) 0 (fun _ => 0) fooArchive 0 [9]
    (by decide) (by decide) (by decide) (by decide), by decide⟩

/-- C2: on the archive `fooArchive` (one uncompressed record named `FOO.TXT`, offset
100, size 5, bytes `HELLO` at 100..104), `getFileByName` with `FOO.TXT` returns `true`
and sets the output to `HELLO`; with `BAR.TXT` it returns `false`. -/
theorem getFileByName_foo_bar (ring0 : Ring) (out : Bytes) :
    getFileByName specLayout fooArchive.length ring0 fooArchive fooName out =
      Outcome.ret true helloBytes ∧
    getFileByName specLayout fooArchive.length ring0 fooArchive barName out =
      Outcome.ret false out := by
  constructor <;> rfl

/-- C3 (the code at a failing input class): when record `n` lies inside the archive and
declares a non-empty slice that ends beyond the archive, `getFileAtIndex` does not
return `false`: it reads beyond the end of the archive buffer, because line 72 takes
the slice without a bounds check. -/
theorem getFileAtIndex_slice_unchecked (L : DatFileIndexLayout) (hL : L.WellFormed)
    (fuel : Nat) (ring0 : Ring) (D : Bytes) (n : Nat) (out : Bytes) (hD : D.length < 2 ^ 31)
    (hslot : 2 + (n + 1) * L.size ≤ D.length)
    (hpos : 0 < entryCompressedSize L D n) (hlt : entryCompressedSize L D n < 2 ^ 31)
    (hover : D.length < entryOffset L D n + entryCompressedSize L D n) :
    getFileAtIndex L fuel ring0 D n out = Outcome.outOfBounds := by
  rw [getFileAtIndex_of_slot L hL fuel ring0 D n out hD hslot,
    storedSlice_of_gt D _ _ hpos hlt hover]

/-- Witness of C3: record 0 of `truncatedArchive` (26 bytes, declared slice 100..104). -/
theorem getFileAtIndex_slice_unchecked_witness :
    getFileAtIndex specLayout 0 (fun _ => 0) truncatedArchive 0 [] = Outcome.outOfBounds :=
  getFileAtIndex_slice_unchecked specLayout (by decide) 0 (fun _ => 0) truncatedArchive 0 []
    (by decide) (by decide) (by decide) (by decide) (by decide)

/-- C4: when no directory record that the walk of `getFileByName` examines has a name
field equal to the requested name (as compared by `strncmp` over at most 14 bytes),
`getFileByName` returns `false` and the output buffer is unchanged. -/
theorem getFileByName_not_found (L : DatFileIndexLayout) (hL : L.WellFormed) (fuel : Nat)
    (ring0 : Ring) (D : Bytes) (filename : Bytes) (out : Bytes) (hfuel : D.length ≤ fuel)
    (hno : ∀ i, 2 + (i + 1) * L.size < D.length →
      strncmpEq 14 filename (entryName L D i) = false) :
    getFileByName L fuel ring0 D filename out = Outcome.ret false out := by
  have hS : 0 < L.size := by
    obtain ⟨h1, _⟩ := hL
    omega
  have h := findByName_none L hS D filename hno fuel 0 0 (by omega)
  have h0 : entryPos L 0 = 2 := by simp [entryPos]
  rw [h0] at h
  unfold getFileByName
  rw [h]

/-- Witness of C4: the name `BAR.TXT` on `fooArchive`. -/
theorem getFileByName_not_found_witness :
    getFileByName specLayout 105 (fun _ => 0) fooArchive barName [9] =
      Outcome.ret false [9] :=
  getFileByName_not_found specLayout (by decide) 105 (fun _ => 0) fooArchive barName [9]
    (by decide) (by
      intro i hi
      have h3 : i ≤ 3 := by
        have : fooArchive.length = 105 := by decide
        simp only [specLayout, this] at hi
        omega
      interval_cases i <;> decide)


/-- C5 (the code at a failing input class): for every record layout (record size `S`)
and every archive `D`, the index `n = 2^31 / S` is a 32-bit index whose record does not fit
in `D`, yet `getFileAtIndex` does not return `false`: the offset `2 + (n+1)*S` lies
between `2^31` and `2^32`, the cast to `int` makes it negative, the guard of line 64
holds and the `memcpy` of line 69 reads beyond the end of the archive buffer. -/
theorem getFileAtIndex_index_cast (L : DatFileIndexLayout) (hL : L.WellFormed)
    (hS : L.size < 2 ^ 31 - 2) (fuel : Nat) (ring0 : Ring) (D : Bytes) (out : Bytes)
    (hD : D.length < 2 ^ 31) :
    getFileAtIndex L fuel ring0 D (2 ^ 31 / L.size) out = Outcome.outOfBounds := by
  obtain ⟨h1, _⟩ := hL
  have hpos : 0 < L.size := by omega
  have hdm : L.size * (2 ^ 31 / L.size) + 2 ^ 31 % L.size = 2 ^ 31 := Nat.div_add_mod _ _
  have hml : 2 ^ 31 % L.size < L.size := Nat.mod_lt _ hpos
  have hc : 2 ^ 31 / L.size * L.size = L.size * (2 ^ 31 / L.size) := Nat.mul_comm _ _
  unfold getFileAtIndex
  generalize 2 ^ 31 / L.size * L.size = m at hc ⊢
  have e1 : m % 2 ^ 64 = m := Nat.mod_eq_of_lt (by omega)
  have e2 : (2 + m) % 2 ^ 64 = 2 + m := Nat.mod_eq_of_lt (by omega)
  have e3 : (2 + m + L.size) % 2 ^ 64 = 2 + m + L.size := Nat.mod_eq_of_lt (by omega)
  have e4 : toInt32 (2 + m + L.size) = ((2 + m + L.size : Nat) : Int) - 2 ^ 32 :=
    toInt32_of_ge (by omega) (by omega)
  have hg : (D.length : Int) ≥ ((2 + m + L.size : Nat) : Int) - 2 ^ 32 := by omega
  have hr : rawRead D (2 + m) L.size = none := by
    unfold rawRead
    rw [if_neg (by omega), if_neg (by omega)]
  simp only [e1, e2, e3, e4, hg, if_true, hr]

/-- Witness of C5: the layout `specLayout` (`S = 24`), the archive `fooArchive` and the
index `2^31 / 24 = 89478485`. -/
theorem getFileAtIndex_index_cast_witness :
    (2 ^ 31 / specLayout.size = 89478485 ∧
      fooArchive.length < 2 + (89478485 + 1) * specLayout.size) ∧
    getFileAtIndex specLayout 0 (fun _ => 0) fooArchive (2 ^ 31 / specLayout.size) [9] =
      Outcome.outOfBounds :=
  ⟨by decide, getFileAtIndex_index_cast specLayout (by decide) (by decide) 0 (fun _ => 0)
    fooArchive [9] (by decide)⟩

/-- C7: for every byte sequence `b` with `|b| + ceil(|b| / 8) < 65536`, the stream that
puts a flag byte 0xFF in front of every group of 8 bytes of `b` (the last group may be
shorter) is decoded by `lzDecompress`, from an empty output buffer, to exactly `b` with
status `true`; the stream has `|b| + ceil(|b| / 8)` bytes. -/
theorem lzDecompress_literals (b : Bytes) (hlen : b.length + (b.length + 7) / 8 < 65536)
    (fuel : Nat) (hfuel : b.length ≤ fuel) (ring0 : Ring) :
    (litEncode b).length = b.length + (b.length + 7) / 8 ∧
      lzDecompress fuel ring0 (litEncode b) [] = some (true, b) := by
  have hl := length_litEncodeAux b.length b (Nat.le_refl _)
  refine ⟨hl, ?_⟩
  obtain ⟨s', hrun, hout, hst⟩ := lzLoop_litEncode b.length b [] (lzInit ring0 []) fuel
    (Nat.le_refl _) rfl (by rw [List.nil_append, hl]; exact hlen) hfuel
  rw [List.nil_append] at hrun
  unfold lzDecompress litEncode
  rw [hrun]
  have h1 : s'.out = b := by rw [hout]; rfl
  have h2 : s'.status = true := by rw [hst]; rfl
  simp [h1, h2]

/-- Witness of C7: the flag byte 0xFF followed by 8 literal bytes decodes to those 8
bytes. -/
theorem lzDecompress_literals_witness :
    litEncode [1, 2, 3, 4, 5, 6, 7, 8] = [0xFF, 1, 2, 3, 4, 5, 6, 7, 8] ∧
    ((litEncode [1, 2, 3, 4, 5, 6, 7, 8]).length = 8 + (8 + 7) / 8 ∧
      lzDecompress 8 (fun _ => 0) (litEncode [1, 2, 3, 4, 5, 6, 7, 8]) [] =
        some (true, [1, 2, 3, 4, 5, 6, 7, 8])) :=
  ⟨by decide, lzDecompress_literals [1, 2, 3, 4, 5, 6, 7, 8] (by decide) 8 (by decide)
    (fun _ => 0)⟩

/-- C8: for every `k` in 1..7, literal bytes `b0 .. b(k-1)`, length `len` in 3..18 and
flag byte with bits `0 .. k-1` set and bit `k` clear, the stream
`[flag, b0 .. b(k-1), 0xEE, ((len-3) << 4) | 0x0F]` is decoded by `lzDecompress`, from an
empty output buffer, to `b0 .. b(k-1)` followed by `len` bytes whose `j`-th byte is
`b(j mod k)`, with status `true`; this includes `len > k`, where the copy reads bytes
that it has written itself. -/
theorem lzDecompress_backref (flag : Byte) (lits : Bytes) (len : Nat)
    (hk1 : 1 ≤ lits.length) (hk7 : lits.length ≤ 7) (hl3 : 3 ≤ len) (hl18 : len ≤ 18)
    (hset : ∀ i, i < lits.length → (flag.val &&& (1 <<< i)) ≠ 0)
    (hclr : (flag.val &&& (1 <<< lits.length)) = 0)
    (fuel : Nat) (hfuel : 1 ≤ fuel) (ring0 : Ring) :
    lzDecompress fuel ring0 (backrefStream flag lits len) [] =
      some (true, lits ++ (List.range len).map (fun j => lits.getD (j % lits.length) 0)) := by
  obtain ⟨f, rfl⟩ : ∃ f, fuel = f + 1 := ⟨fuel - 1, by omega⟩
  obtain ⟨hsize, hsource⟩ := backrefByte1_decode len hl3 hl18
  have hclen : (backrefStream flag lits len).length = lits.length + 3 := by
    simp [backrefStream]
  have hc1 : backrefStream flag lits len = [flag] ++ lits ++ [0xEE, backrefByte1 len] := by
    simp [backrefStream]
  have hc2 : backrefStream flag lits len = (flag :: lits) ++ 0xEE :: [backrefByte1 len] := by
    simp [backrefStream]
  have hc3 : backrefStream flag lits len = (flag :: lits ++ [0xEE]) ++ backrefByte1 len :: [] := by
    simp [backrefStream]
  -- the state after the flag byte and the state after the literals
  let s1 : LzState := { lzInit ring0 [] with inputPos := incU16 0 }
  have hs1pos : s1.inputPos = 1 := rfl
  have hs1buf : s1.bufPos = 4078 := rfl
  have hpos2 : (litRun s1 lits).inputPos = lits.length + 1 := by
    rw [litRun_inputPos _ _ (by rw [hs1pos]; omega), hs1pos]
    omega
  have hbuf2 : (litRun s1 lits).bufPos = 4078 + lits.length := by
    rw [litRun_bufPos _ _ (by rw [hs1buf]; omega), hs1buf]
  have hring2 : ∀ i, i < lits.length →
      (litRun s1 lits).ring ((4078 + i) % 4096) = lits.getD (i % lits.length) 0 := by
    intro i hi
    have := litRun_ring lits s1 i (by rw [hs1buf]; omega) hi
    rw [hs1buf] at this
    rw [Nat.mod_eq_of_lt (by omega : 4078 + i < 4096), Nat.mod_eq_of_lt hi, this]
  -- the two codeword bytes
  have hcw0 : byteAt (backrefStream flag lits len) (lits.length + 1) = 0xEE := by
    rw [hc2]
    exact byteAt_append_cons (flag :: lits) _ _
  have hcw1 : byteAt (backrefStream flag lits len) (lits.length + 2) = backrefByte1 len := by
    rw [hc3]
    have := byteAt_append_cons (flag :: lits ++ [0xEE]) (backrefByte1 len) []
    simpa using this
  have hi1 : incU16 (lits.length + 1) = lits.length + 2 := incU16_of_lt (by omega)
  have hi2 : incU16 (lits.length + 2) = lits.length + 3 := incU16_of_lt (by omega)
  -- the copy loop
  obtain ⟨hr1, hr2, hr3, hr4⟩ := lzCopy_periodic lits len (by omega) (by omega) len 0 4078
    { litRun s1 lits with inputPos := lits.length + 3 } (by omega) (by omega)
    (by show (litRun s1 lits).bufPos = _; rw [hbuf2]; omega)
    (by
      intro i hi
      exact hring2 i (by omega))
  -- the back-reference chunk
  have hchunk : lzChunk (backrefStream flag lits len) flag lits.length (litRun s1 lits) =
      (lzCopy len len 0 4078 { litRun s1 lits with inputPos := lits.length + 3 }).2 := by
    unfold lzChunk
    rw [if_neg (fun h => h hclr)]
    simp only [hpos2, hi1, hi2, hcw0, hcw1, hsize, hsource]
    exact if_neg (Nat.not_lt.mpr (Nat.le_of_eq hr1.symm))
  -- the chunk loop
  have hgroup : lzGroup (backrefStream flag lits len) (lzInit ring0 []) =
      (lzCopy len len 0 4078 { litRun s1 lits with inputPos := lits.length + 3 }).2 := by
    have hflag : byteAt (backrefStream flag lits len) (lzInit ring0 []).inputPos = flag := rfl
    unfold lzGroup
    rw [hflag]
    show lzChunks (backrefStream flag lits len) flag 8 0 s1 = _
    have hlits := lzChunks_literals flag [0xEE, backrefByte1 len] lits [flag] 8 0 s1 rfl
      (by rw [← hc1, hclen]; omega)
      (by
        intro i hi
        rw [Nat.zero_add]
        exact hset i hi)
      (by omega) (by omega)
    rw [← hc1] at hlits
    rw [hlits, Nat.zero_add, show 8 - lits.length = (7 - lits.length) + 1 by omega,
      lzChunks_succ, if_pos ⟨by omega, by rw [hpos2, hclen]; omega⟩, hchunk]
    exact lzChunks_stop _ _ _ _ _ (by rw [hr4, hclen])
  unfold lzDecompress
  rw [lzLoop_succ, if_pos (by rw [hclen]; exact Nat.succ_pos _), hgroup,
    lzLoop_stop _ _ _ (by rw [hr4, hclen])]
  have hout : (litRun s1 lits).out = lits := by
    rw [litRun_out]
    rfl
  have hst : (litRun s1 lits).status = true := by
    rw [litRun_status]
    rfl
  have hr2b : (lzCopy len len 0 4078 { litRun s1 lits with inputPos := lits.length + 3 }).2.out =
      lits ++ (List.range len).map (fun j => lits.getD (j % lits.length) 0) := by
    rw [hr2, List.range_eq_range']
    show (litRun s1 lits).out ++ _ = _
    rw [hout]
  have hr3b : (lzCopy len len 0 4078
      { litRun s1 lits with inputPos := lits.length + 3 }).2.status = true := by
    rw [hr3]
    exact hst
  simp [hr2b, hr3b]

/-- Witness of C8: the literals `A B C` followed by a back-reference of length 3 to
their ring position decode to `A B C A B C`. -/
theorem lzDecompress_backref_witness :
    backrefStream 0x07 [65, 66, 67] 3 = [0x07, 65, 66, 67, 0xEE, 0x0F] ∧
    ([65, 66, 67] ++ (List.range 3).map (fun j => ([65, 66, 67] : Bytes).getD (j % 3) 0) =
      [65, 66, 67, 65, 66, 67]) ∧
    lzDecompress 1 (fun _ => 0) (backrefStream 0x07 [65, 66, 67] 3) [] =
      some (true, [65, 66, 67] ++
        (List.range 3).map (fun j => ([65, 66, 67] : Bytes).getD (j % ([65, 66, 67] : Bytes).length) 0)) :=
  ⟨by decide, by decide, lzDecompress_backref 0x07 [65, 66, 67] 3 (by decide) (by decide)
    (by decide) (by decide) (by intro i hi; have : i < 3 := hi; interval_cases i <;> decide)
    (by decide) 1 (by decide) (fun _ => 0)⟩

/-- C9 (the code at the failing input): on the two-byte input `0x00 0x41`, whose only
chunk is a back-reference with one codeword byte left, `lzDecompress` returns `true` and
appends three bytes 0x20 to the output: the missing codeword byte is read as zero and
the copy runs. -/
theorem lzDecompress_truncated_codeword (ring0 : Ring) (out : Bytes) :
    lzDecompress 2 ring0 [0x00, 0x41] out = some (true, out ++ [0x20, 0x20, 0x20]) := by
  simp [lzDecompress, lzLoop, lzInit, lzGroup, lzChunks, lzChunk, lzCopy, byteAt, incU16,
    ringNext, ringSet, ringMemset, LZ_RINGBUF_SIZE, Fin.coe_ofNat_eq_mod]

/-- C10 (the code at the failing input): on an input of 65536 bytes `0xFF` the call of
`lzDecompress` does not return, whatever the fuel: `inputPos` is a `uint16_t`, wraps
from 65535 to 0 and stays below the length. -/
theorem lzDecompress_diverges (fuel : Nat) (ring0 : Ring) (out : Bytes) :
    lzDecompress fuel ring0 (List.replicate 65536 0xFF) out = none := by
  unfold lzDecompress
  have hlen : 65536 ≤ (List.replicate 65536 (0xFF : Byte)).length := by
    rw [List.length_replicate]
  have hpos : (lzInit ring0 out).inputPos < 65536 := by
    show 0 < 65536
    omega
  rw [lzLoop_long_input _ hlen fuel (lzInit ring0 out) hpos]
  rfl

/-- C11: `lzDecompress` does not depend on what earlier calls left in the member ring
buffer: for every input `c`, every fuel and every two ring contents, two calls that start
from the same (for instance the empty) output buffer give the same output bytes and the
same status, and one returns exactly when the other does; the ring is refilled with
0x20 and the write cursor reset to 0xFEE on entry. -/
theorem lzDecompress_ring_independent (fuel : Nat) (ring1 ring2 : Ring) (c : Bytes)
    (out : Bytes) : lzDecompress fuel ring1 c out = lzDecompress fuel ring2 c out := by
  unfold lzDecompress
  apply lzLoop_sim
  refine ⟨rfl, rfl, rfl, rfl, by show 0xFEE < 4096; omega, ?_⟩
  intro i hi
  show ringMemset ring1 i = ringMemset ring2 i
  unfold ringMemset LZ_RINGBUF_SIZE
  rw [if_pos hi, if_pos hi]


/-! ## Theorems on the palette, the alien table and the mission text -/

/-- C15 (the code on every resolved payload): when `getFileByName` resolves `GAME.PAL` to
the payload `P`, `loadGamePalette`, called with an empty cache, returns `true` with a
palette of `|P| - 6` entries, and entry `k` is built from the bytes `P[3+k]`, `P[4+k]`,
`P[5+k]`: the index advances by one byte per entry, so consecutive entries overlap in
two bytes and a payload of `3 + 3*256` bytes gives 765 entries. -/
theorem loadGamePalette_stride (L : DatFileIndexLayout) (fuel : Nat) (ring0 : Ring)
    (test : Bytes) (P : Bytes)
    (hres : getFileByName L fuel ring0 test gamePalName [] = Outcome.ret true P) :
    loadGamePalette L fuel ring0 test [] =
      Run.ret (true, (List.range (P.length - 6)).map (fun k =>
        qRgb (palChannel (byteAt P (3 + k))) (palChannel (byteAt P (4 + k)))
          (palChannel (byteAt P (5 + k))))) := by
  unfold loadGamePalette
  rw [if_pos (by rfl : ([] : List Nat).length = 0), hres]
  dsimp only
  rw [palLoop_eq P P.length 3 [] (by omega), List.nil_append,
    show P.length - 3 - 3 = P.length - 6 by omega, List.range'_eq_map_range, List.map_map]
  congr 2
  apply List.map_congr_left
  intro k _
  show qRgb (palChannel (byteAt P (3 + k))) (palChannel (byteAt P (3 + k + 1)))
    (palChannel (byteAt P (3 + k + 2))) = _
  rw [show 3 + k + 1 = 4 + k by omega, show 3 + k + 2 = 5 + k by omega]

/-- Witness of C15: a payload with the header and the two triples `1 2 3`, `4 5 6` gives
three entries, built from `1 2 3`, `2 3 4` and `3 4 5`. -/
theorem loadGamePalette_stride_witness :
    loadGamePalette specLayout 100 (fun _ => 0)
        (oneFileArchive gamePalName [0, 0, 0, 1, 2, 3, 4, 5, 6]) [] =
      Run.ret (true, (List.range (([0, 0, 0, 1, 2, 3, 4, 5, 6] : Bytes).length - 6)).map
        (fun k =>
          qRgb (palChannel (byteAt [0, 0, 0, 1, 2, 3, 4, 5, 6] (3 + k)))
            (palChannel (byteAt [0, 0, 0, 1, 2, 3, 4, 5, 6] (4 + k)))
            (palChannel (byteAt [0, 0, 0, 1, 2, 3, 4, 5, 6] (5 + k))))) :=
  loadGamePalette_stride specLayout 100 (fun _ => 0)
    (oneFileArchive gamePalName [0, 0, 0, 1, 2, 3, 4, 5, 6]) [0, 0, 0, 1, 2, 3, 4, 5, 6]
    (by decide)

/-- C16: for every 6-bit channel value `v` (0..63) the channel computed by
`loadGamePalette` is `(v << 2) | (v >> 4)`; it lies in 0..255, is strictly increasing
in `v`, and maps 0 to 0 and 63 to 255. -/
theorem palChannel_six_bit (v : Byte) (hv : v.val ≤ 63) :
    palChannel v = (((v.val <<< 2) ||| (v.val >>> 4) : Nat) : Int) ∧
      0 ≤ palChannel v ∧ palChannel v ≤ 255 ∧
      (∀ u : Byte, u.val ≤ 63 → v.val < u.val → palChannel v < palChannel u) ∧
      palChannel 0 = 0 ∧ palChannel 63 = 255 := by
  obtain ⟨h1, h2⟩ := palChannel_eq v hv
  refine ⟨by rw [h1, h2], by rw [h1]; omega, by rw [h1]; omega, ?_, by decide, by decide⟩
  intro u hu hlt
  rw [h1, (palChannel_eq u hu).1]
  omega

/-- Witness of C16: the value 63. -/
theorem palChannel_six_bit_witness :
    palChannel 63 = ((((63 : Byte).val <<< 2) ||| ((63 : Byte).val >>> 4) : Nat) : Int) ∧
      0 ≤ palChannel 63 ∧ palChannel 63 ≤ 255 ∧
      (∀ u : Byte, u.val ≤ 63 → (63 : Byte).val < u.val → palChannel 63 < palChannel u) ∧
      palChannel 0 = 0 ∧ palChannel 63 = 255 :=
  palChannel_six_bit 63 (by decide)

/-- C17 (the code on every failing input): for an `ALIEN.TAB` payload shorter than one
record (fewer than 8 bytes, the empty payload included) the record walk of
`populateAlienList` does not stop before the first record: `aliendata.size() -
sizeof(AlienTableEntry)` is computed in `unsigned long` and wraps, the loop is entered
and reads beyond the end of the payload. -/
theorem populateAlienList_short_payload (aliendata : Bytes) (fuel : Nat)
    (hlen : aliendata.length < 8) (hfuel : 2 ≤ fuel) :
    populateAlienListWalk fuel aliendata = Run.outOfBounds := by
  obtain ⟨f, rfl⟩ : ∃ f, fuel = f + 2 := ⟨fuel - 2, by omega⟩
  have hb : (aliendata.length + 2 ^ 64 - ALIEN_ENTRY_SIZE) % 2 ^ 64 =
      aliendata.length + 2 ^ 64 - 8 := by
    unfold ALIEN_ENTRY_SIZE
    omega
  unfold populateAlienListWalk alienWalk
  rw [hb, if_pos (by omega)]
  by_cases h2 : aliendata.length < 2
  · rw [rawRead_none aliendata 0 2 (by omega) (by omega)]
  · rw [rawRead_some aliendata 0 2 (by omega) (by omega)]
    dsimp only
    split
    · rfl
    · unfold alienWalk
      rw [hb, if_pos (by unfold ALIEN_ENTRY_SIZE; omega),
        rawRead_none aliendata _ 2 (by omega) (by unfold ALIEN_ENTRY_SIZE; omega)]

/-- Witness of C17: the empty payload. -/
theorem populateAlienList_short_payload_witness :
    populateAlienListWalk 2 [] = Run.outOfBounds :=
  populateAlienList_short_payload [] 2 (by decide) (by decide)

/-- C18: when both `getFileByName` calls of `Missions::getMissionText` resolve (to the
index blob `idx` and the text blob `txt`) and the 4-byte slot at `(id + 1) * 4` lies
inside the index blob, `getMissionText` uses as text offset the 32-bit little-endian
value stored in the index blob at the bytes `(id + 1) * 4 .. (id + 1) * 4 + 3` (read as
a signed `int32_t`): that value is compared with the size of the text blob and handed to
`readString`; for `id = 0` it is the value at byte 4, the second 4-byte slot. -/
theorem getMissionText_offset {α : Type} (L : DatFileIndexLayout) (fuel : Nat) (ring0 : Ring)
    (converse : Bytes) (readString : Bytes → Nat → α) (noText : α) (id : Nat)
    (idx txt : Bytes)
    (hidx : getFileByName L fuel ring0 converse misTextIdxName [] = Outcome.ret true idx)
    (htxt : getFileByName L fuel ring0 converse misTextTxtName [] = Outcome.ret true txt)
    (hslot : (id + 1) * 4 + 4 ≤ idx.length) :
    getMissionText L fuel ring0 converse readString noText id =
      if toInt32 (le32 idx ((id + 1) * 4)) < (txt.length : Int) then
        if toInt32 (le32 idx ((id + 1) * 4)) < 0 then Run.outOfBounds
        else Run.ret (readString txt (toInt32 (le32 idx ((id + 1) * 4))).toNat)
      else Run.ret noText := by
  unfold getMissionText
  rw [hidx]
  dsimp only
  rw [htxt]
  dsimp only
  exact getMissionTextBody_offset readString noText idx txt id hslot

/-- Witness of C18: `id = 0` on `converseArchive`, whose index blob holds 0x09090909 in
its first slot and 1 in its second: the text is read from offset 1 of the text blob. -/
theorem getMissionText_offset_witness :
    getMissionText specLayout 61 (fun _ => 0) converseArchive (fun b o => b.drop o) [] 0 =
      (if toInt32 (le32 [9, 9, 9, 9, 1, 0, 0, 0] ((0 + 1) * 4)) < (([65, 66, 0] : Bytes).length : Int) then
        if toInt32 (le32 [9, 9, 9, 9, 1, 0, 0, 0] ((0 + 1) * 4)) < 0 then Run.outOfBounds
        else Run.ret ((fun (b : Bytes) o => b.drop o) [65, 66, 0]
          (toInt32 (le32 [9, 9, 9, 9, 1, 0, 0, 0] ((0 + 1) * 4))).toNat)
      else Run.ret []) ∧
    toInt32 (le32 [9, 9, 9, 9, 1, 0, 0, 0] ((0 + 1) * 4)) = 1 ∧
    getMissionText specLayout 61 (fun _ => 0) converseArchive (fun b o => b.drop o) [] 0 =
      Run.ret [66, 0] :=
  ⟨getMissionText_offset specLayout 61 (fun _ => 0) converseArchive (fun b o => b.drop o) [] 0
    [9, 9, 9, 9, 1, 0, 0, 0] [65, 66, 0] (by decide) (by decide) (by decide),
   by decide, by decide⟩

/-- C19 (the code on every failing input): when the 4-byte slot at `(id + 1) * 4` does
not lie wholly inside the index blob, or the signed offset stored there is negative,
`getMissionText` does not return the empty string: the `memcpy` of line 77 is not
bounds-checked, and the test `txtOffset < misTextStrData.size()` of line 80 lets a
negative offset pass, so a byte outside a blob is read. -/
theorem getMissionText_unchecked {α : Type} (readString : Bytes → Nat → α) (noText : α)
    (idx txt : Bytes) (id : Nat)
    (h : idx.length < (id + 1) * 4 + 4 ∨
      ((id + 1) * 4 + 4 ≤ idx.length ∧ toInt32 (le32 idx ((id + 1) * 4)) < 0)) :
    getMissionTextBody readString noText idx txt id = Run.outOfBounds := by
  rcases h with h | ⟨hslot, hneg⟩
  · unfold getMissionTextBody
    dsimp only
    rw [rawRead_none idx _ 4 (by omega) h]
  · unfold getMissionTextBody
    dsimp only
    rw [rawRead_some idx _ 4 (by omega) hslot]
    dsimp only
    rw [le32_take_drop idx _ 4 0 (by omega), Nat.add_zero, if_pos (by omega), if_pos hneg]

/-- Witness of C19: `id = 0` on an index blob of 4 bytes (the slot 4..7 lies outside), and
`id = 0` on an index blob whose second slot holds -1. -/
theorem getMissionText_unchecked_witness :
    getMissionTextBody (fun b o => b.drop o) [] [0, 0, 0, 0] [65, 66, 0] 0 = Run.outOfBounds ∧
    getMissionTextBody (fun b o => b.drop o) [] [0, 0, 0, 0, 255, 255, 255, 255] [65, 66, 0] 0 =
      Run.outOfBounds :=
  ⟨getMissionText_unchecked (fun b o => b.drop o) [] [0, 0, 0, 0] [65, 66, 0] 0
    (Or.inl (by decide)),
   getMissionText_unchecked (fun b o => b.drop o) [] [0, 0, 0, 0, 255, 255, 255, 255]
    [65, 66, 0] 0 (Or.inr ⟨by decide, by decide⟩)⟩

/-- C20 (the code on every failing input): when directory record `i` ends exactly at the
last byte of the archive and no record before it has the requested name, `getFileByName`
returns `false` with the output unchanged, also when record `i` has the requested
name: the walk examines a record only if `2 + (i + 1) * S < |D|`, while `getFileAtIndex`
accepts it if `2 + (i + 1) * S <= |D|`. -/
theorem getFileByName_last_record (L : DatFileIndexLayout) (hL : L.WellFormed) (fuel : Nat)
    (ring0 : Ring) (D : Bytes) (filename : Bytes) (out : Bytes) (i : Nat)
    (hfuel : D.length ≤ fuel) (hend : 2 + (i + 1) * L.size = D.length)
    (hbefore : ∀ j, j < i → strncmpEq 14 filename (entryName L D j) = false) :
    getFileByName L fuel ring0 D filename out = Outcome.ret false out := by
  have hS : 0 < L.size := by
    obtain ⟨h1, _⟩ := hL
    omega
  have hno : ∀ j, 2 + (j + 1) * L.size < D.length →
      strncmpEq 14 filename (entryName L D j) = false := by
    intro j hj
    apply hbefore
    rw [← hend] at hj
    by_contra hge
    have hle : (i + 1) * L.size ≤ (j + 1) * L.size := Nat.mul_le_mul_right _ (by omega)
    omega
  have h := findByName_none L hS D filename hno fuel 0 0 (by omega)
  have h0 : entryPos L 0 = 2 := by simp [entryPos]
  rw [h0] at h
  unfold getFileByName
  rw [h]

/-- Witness of C20: the 26-byte archive that consists of the header and the record
`FOO.TXT` (offset 26, size 0): record 0 has the requested name and `getFileAtIndex`
returns `true` for it, `getFileByName` returns `false`. -/
theorem getFileByName_last_record_witness :
    (strncmpEq 14 fooName (entryName specLayout (oneFileArchive fooName []) 0) = true ∧
      getFileAtIndex specLayout 26 (fun _ => 0) (oneFileArchive fooName []) 0 [9] =
        Outcome.ret true []) ∧
    getFileByName specLayout 26 (fun _ => 0) (oneFileArchive fooName []) fooName [9] =
      Outcome.ret false [9] :=
  ⟨by decide, getFileByName_last_record specLayout (by decide) 26 (fun _ => 0)
    (oneFileArchive fooName []) fooName [9] 0 (by decide) (by decide)
    (by intro j hj; omega)⟩

/-! ## Theorems on the inventory images -/

/-- C12 (the code at the failing input): the payload `02 00 01 00 00 00 00 00 81` (width
2, height 1, a stream that ends after one skip run of length 1), decoded into an image
whose pixel buffer held 9 when it was constructed.  The loop stops with the output
cursor at 1; cell 0, passed over by the skip run, holds 0; cell 1 is written by no run
and holds 9, not the default index 0: the image is never filled. -/
theorem decodeImage_unfilled :
    (decodeImage [2, 0, 1, 0, 0, 0, 0, 0, 0x81] 256 (fun _ => 9)).outputpos = 1 ∧
      (decodeImage [2, 0, 1, 0, 0, 0, 0, 0, 0x81] 256 (fun _ => 9)).inputpos = 9 ∧
      (decodeImage [2, 0, 1, 0, 0, 0, 0, 0, 0x81] 256 (fun _ => 9)).img
        (getPixelLocation 2 0) = 0 ∧
      (decodeImage [2, 0, 1, 0, 0, 0, 0, 0, 0x81] 256 (fun _ => 9)).img
        (getPixelLocation 2 1) = 9 := by
  decide

/-- The decoding loop of `getInventoryImage` on every payload, colour count and content
`img0` of the freshly constructed pixel buffer: it stops (input exhausted or `outputpos`
at `pixelcount`) with the output cursor at most `w * h`; it writes no cell at or beyond
the final output cursor, hence none at a position `>= w * h`, and no pixel outside the
`w * h` image: those cells hold what the constructor of `QImage` left there. -/
theorem decodeImage_grid (imageFile : Bytes) (colorCount : Nat) (img0 : Image) :
    (decodeImage imageFile colorCount img0).outputpos ≤
        imageWidth imageFile * imageHeight imageFile ∧
      Untouched (imageWidth imageFile) (imageHeight imageFile)
        (decodeImage imageFile colorCount img0).outputpos img0
        (decodeImage imageFile colorCount img0).img ∧
      ¬((decodeImage imageFile colorCount img0).inputpos < imageFile.length ∧
        ((decodeImage imageFile colorCount img0).outputpos : Int) < imagePixelcount imageFile) := by
  obtain ⟨_, h2, h3, h4⟩ := rleLoop_spec imageFile (imageWidth imageFile)
    (imageHeight imageFile) colorCount (imagePixelcount imageFile) imageFile.length
    { inputpos := 8, outputpos := 0, img := img0 }
  refine ⟨?_, h3, h4 (by omega)⟩
  rcases h2 with h2 | h2
  · show (rleLoop _ _ _ _ _ _ _).outputpos ≤ _
    rw [h2]
    exact Nat.zero_le _
  · have hw := wrap32_le (imageWidth imageFile * imageHeight imageFile)
    have h5 : ((decodeImage imageFile colorCount img0).outputpos : Int) ≤
        ((imageWidth imageFile * imageHeight imageFile : Nat) : Int) :=
      Int.le_trans h2 hw
    exact_mod_cast h5

/-- C13 (the code on every failing input): when the control byte `c` read at `inputpos`
has both high bits clear, and `c` and `outputpos` are not both zero, the literal run of
`getInventoryImage` does not stop after `c` bytes: it copies `min(pixelcount - outputpos,
len - (inputpos + 1))` input bytes, whatever `c` is, because the first operand of the
loop condition is `outputpos + endptr` and not `outputpos < endptr`.  (Stated for
images of fewer than `2^30 - 32` pixels, where no `int` overflows.) -/
theorem rleStep_literal_run (data : Bytes) (w h cc P : Nat) (s : RleState)
    (hc : (byteAt data s.inputpos).val < 0x40)
    (hnz : 0 < s.outputpos + (byteAt data s.inputpos).val)
    (hP : 2 * P + 64 ≤ 2 ^ 31) (ho : s.outputpos ≤ P) :
    (rleStep data w h cc (P : Int) s).outputpos =
        s.outputpos + min (P - s.outputpos) (data.length - (s.inputpos + 1)) ∧
      (rleStep data w h cc (P : Int) s).inputpos =
        s.inputpos + 1 + min (P - s.outputpos) (data.length - (s.inputpos + 1)) := by
  obtain ⟨hb7, hb6⟩ := low_control_byte _ hc
  rw [rleStep_literal data w h cc (P : Int) s (fun hh => hh hb7) (fun hh => hh hb6)]
  have he : wrap32 ((s.outputpos : Int) + ((byteAt data s.inputpos).val : Int)) =
      (s.outputpos : Int) + ((byteAt data s.inputpos).val : Int) :=
    wrap32_of_small _ (by omega) (by omega)
  rw [he]
  have hl := literalRun_cursor data w h cc P
    ((s.outputpos : Int) + ((byteAt data s.inputpos).val : Int)) (by omega) (by omega)
    data.length (s.inputpos + 1) s.outputpos s.img ho (by omega)
  generalize literalRun data w h cc (P : Int)
    ((s.outputpos : Int) + ((byteAt data s.inputpos).val : Int))
    data.length (s.inputpos + 1) s.outputpos s.img = r at hl ⊢
  exact rleState_cursor_of _ _ _ _ _ hl.2 hl.1

/-- Witness of C13: width 4, height 1 and the stream `01 05 06 07`: the control byte 1 at
position 8 announces one literal byte, the run copies three (5, 6 and 7) and leaves
`inputpos` at 12. -/
theorem rleStep_literal_run_witness :
    ((rleStep [4, 0, 1, 0, 0, 0, 0, 0, 1, 5, 6, 7] 4 1 256 ((4 : Nat) : Int)
        { inputpos := 8, outputpos := 0, img := fun _ => 0 }).outputpos =
        0 + min (4 - 0) (([4, 0, 1, 0, 0, 0, 0, 0, 1, 5, 6, 7] : Bytes).length - (8 + 1)) ∧
      (rleStep [4, 0, 1, 0, 0, 0, 0, 0, 1, 5, 6, 7] 4 1 256 ((4 : Nat) : Int)
        { inputpos := 8, outputpos := 0, img := fun _ => 0 }).inputpos =
        8 + 1 + min (4 - 0) (([4, 0, 1, 0, 0, 0, 0, 0, 1, 5, 6, 7] : Bytes).length - (8 + 1))) ∧
    min (4 - 0) (([4, 0, 1, 0, 0, 0, 0, 0, 1, 5, 6, 7] : Bytes).length - (8 + 1)) = 3 :=
  ⟨rleStep_literal_run [4, 0, 1, 0, 0, 0, 0, 0, 1, 5, 6, 7] 4 1 256 4
    { inputpos := 8, outputpos := 0, img := fun _ => 0 } (by decide) (by decide) (by decide)
    (by decide), by decide⟩

/-- C14 (the code on every input): `getInventoryImage` returns `true` when
`getFileAtIndex` fails to resolve the entry, `true` when the entry resolves and the
palette cannot be loaded, and `false` whenever the entry resolves (to a payload of at
least 4 bytes) and the palette loads, whatever the RLE stream: `status` starts as `true`
and is set to `false` by the unguarded block of lines 238-240. -/
theorem getInventoryImage_status (L : DatFileIndexLayout) (fuel : Nat) (ring0 : Ring)
    (invent test : Bytes) (m_gamePalette : List Nat) (objectId : Nat) (img0 : Image) :
    (∀ out, getFileAtIndex L fuel ring0 invent objectId [] = Outcome.ret false out →
      getInventoryImage L fuel ring0 invent test m_gamePalette objectId img0 = Run.ret true) ∧
    (∀ imageFile palette,
      getFileAtIndex L fuel ring0 invent objectId [] = Outcome.ret true imageFile →
      loadGamePalette L fuel ring0 test m_gamePalette = Run.ret (false, palette) →
      getInventoryImage L fuel ring0 invent test m_gamePalette objectId img0 = Run.ret true) ∧
    (∀ imageFile palette,
      getFileAtIndex L fuel ring0 invent objectId [] = Outcome.ret true imageFile →
      loadGamePalette L fuel ring0 test m_gamePalette = Run.ret (true, palette) →
      4 ≤ imageFile.length →
      getInventoryImage L fuel ring0 invent test m_gamePalette objectId img0 =
        Run.ret false) := by
  refine ⟨?_, ?_, ?_⟩
  · intro out h
    unfold getInventoryImage
    rw [h]
  · intro imageFile palette h1 h2
    unfold getInventoryImage
    rw [h1]
    dsimp only
    rw [h2]
  · intro imageFile palette h1 h2 h4
    unfold getInventoryImage
    rw [h1]
    dsimp only
    rw [h2]
    dsimp only
    rw [if_neg (by omega)]

/-- Witness of C14: with an empty `INVENT.DAT` the entry 0 does not resolve and the call
returns `true`; with an `INVENT.DAT` whose entry 0 is a complete 1 x 1 image (stream
`81 00`) and a `TEST.DAT` that holds `GAME.PAL`, the call returns `false`. -/
theorem getInventoryImage_status_witness :
    getInventoryImage specLayout 100 (fun _ => 0) []
        (oneFileArchive gamePalName [0, 0, 0, 1, 2, 3, 4, 5, 6, 7]) [] 0 (fun _ => 0) =
      Run.ret true ∧
    getInventoryImage specLayout 100 (fun _ => 0)
        (oneFileArchive fooName [1, 0, 1, 0, 0, 0, 0, 0, 0x81, 0])
        (oneFileArchive gamePalName [0, 0, 0, 1, 2, 3, 4, 5, 6, 7]) [] 0 (fun _ => 0) =
      Run.ret false :=
  ⟨(getInventoryImage_status specLayout 100 (fun _ => 0) []
      (oneFileArchive gamePalName [0, 0, 0, 1, 2, 3, 4, 5, 6, 7]) [] 0 (fun _ => 0)).1 []
      (by decide),
   (getInventoryImage_status specLayout 100 (fun _ => 0)
      (oneFileArchive fooName [1, 0, 1, 0, 0, 0, 0, 0, 0x81, 0])
      (oneFileArchive gamePalName [0, 0, 0, 1, 2, 3, 4, 5, 6, 7]) [] 0 (fun _ => 0)).2.2
      [1, 0, 1, 0, 0, 0, 0, 0, 0x81, 0]
      (palLoop [0, 0, 0, 1, 2, 3, 4, 5, 6, 7] 10 3 [])
      (by decide) (by decide) (by decide)⟩

/-! ## Theorems on the output buffer of the decompressor -/

/-- C21, counterexample: `onesInput` is shorter than 65536 bytes, and the call of
`lzDecompress` on it, with an output buffer that holds one byte, returns for no fuel:
there is no output after the call. -/
theorem lzDecompress_appends_counterexample :
    onesInput.length < 65536 ∧
      ¬∃ (fuel : Nat) (r : Bool × Bytes),
        lzDecompress fuel (fun _ => 0) onesInput [9] = some r := by
  refine ⟨by rw [onesInput_length]; omega, ?_⟩
  rintro ⟨fuel, r, h⟩
  unfold lzDecompress at h
  rw [lzLoop_onesInput fuel (lzInit (fun _ => 0) [9]) rfl (by show 0 < 65535; omega)] at h
  cases h

/-- C21, amended: `lzDecompress` appends to the caller's output buffer and never clears
it.  For every compressed input `c` of at most 65534 bytes and every initial output
content `P` the call returns, the output after the call is `P` followed by the bytes
that decoding `c` produces from an empty buffer, and the status is the same.
Consequently `getFileAtIndex` on an entry stored in the supported compression (slice
inside the archive, at most 65534 bytes) keeps the prior content of its output buffer as
a prefix, whereas on an uncompressed entry it replaces it by the slice. -/
theorem lzDecompress_appends :
    (∀ (c : Bytes) (fuel : Nat) (ring0 : Ring) (P : Bytes),
      c.length ≤ 65534 → c.length ≤ fuel →
      ∃ st out, lzDecompress fuel ring0 c [] = some (st, out) ∧
        lzDecompress fuel ring0 c P = some (st, P ++ out)) ∧
    (∀ (L : DatFileIndexLayout) (fuel : Nat) (ring0 : Ring) (D : Bytes) (n : Nat) (P : Bytes),
      L.WellFormed → D.length < 2 ^ 31 → 2 + (n + 1) * L.size ≤ D.length →
      (entryFlagsB L D n &&& 0x1) ≠ 0 → (entryFlagsA L D n &&& 0x4) ≠ 0 →
      entryOffset L D n + entryCompressedSize L D n ≤ D.length →
      entryCompressedSize L D n ≤ 65534 → entryCompressedSize L D n ≤ fuel →
      ∃ st out, getFileAtIndex L fuel ring0 D n [] = Outcome.ret st out ∧
        getFileAtIndex L fuel ring0 D n P = Outcome.ret st (P ++ out)) ∧
    (∀ (L : DatFileIndexLayout) (fuel : Nat) (ring0 : Ring) (D : Bytes) (n : Nat) (P : Bytes),
      L.WellFormed → D.length < 2 ^ 31 → 2 + (n + 1) * L.size ≤ D.length →
      (entryFlagsB L D n &&& 0x1) = 0 →
      entryOffset L D n + entryCompressedSize L D n ≤ D.length →
      getFileAtIndex L fuel ring0 D n P =
        Outcome.ret true ((D.drop (entryOffset L D n)).take (entryCompressedSize L D n))) := by
  refine ⟨?_, ?_, ?_⟩
  · intro c fuel ring0 P hlen hfuel
    exact lzDecompress_append_returns c fuel ring0 P hlen hfuel
  · intro L fuel ring0 D n P hL hD hslot hb ha hslice hsz hfuel
    have hlen : ((D.drop (entryOffset L D n)).take (entryCompressedSize L D n)).length =
        entryCompressedSize L D n := by
      rw [List.length_take, List.length_drop]
      omega
    obtain ⟨st, out, h0, h1⟩ := lzDecompress_append_returns
      ((D.drop (entryOffset L D n)).take (entryCompressedSize L D n)) fuel ring0 P
      (by rw [hlen]; exact hsz) (by rw [hlen]; exact hfuel)
    refine ⟨st, out, ?_, ?_⟩
    · rw [getFileAtIndex_of_slot L hL fuel ring0 D n [] hD hslot,
        storedSlice_of_le D _ _ hD hslice]
      dsimp only
      rw [if_pos hb, if_pos ha, h0]
    · rw [getFileAtIndex_of_slot L hL fuel ring0 D n P hD hslot,
        storedSlice_of_le D _ _ hD hslice]
      dsimp only
      rw [if_pos hb, if_pos ha, h1]
  · intro L fuel ring0 D n P hL hD hslot hflag hslice
    rw [getFileAtIndex_of_slot L hL fuel ring0 D n P hD hslot,
      storedSlice_of_le D _ _ hD hslice]
    dsimp only
    rw [if_neg (fun h => h hflag)]

/-- Witness of C21: the stream `FF 41 42` with the output buffer holding the byte 9; the
same stream as the compressed entry 0 of an archive; and the uncompressed entry 0 of
`fooArchive`. -/
theorem lzDecompress_appends_witness :
    (∃ st out, lzDecompress 3 (fun _ => 0) [0xFF, 65, 66] [] = some (st, out) ∧
      lzDecompress 3 (fun _ => 0) [0xFF, 65, 66] [9] = some (st, [9] ++ out)) ∧
    (∃ st out,
      getFileAtIndex specLayout 3 (fun _ => 0) (oneCompressedArchive fooName [0xFF, 65, 66]) 0
        [] = Outcome.ret st out ∧
      getFileAtIndex specLayout 3 (fun _ => 0) (oneCompressedArchive fooName [0xFF, 65, 66]) 0
        [9] = Outcome.ret st ([9] ++ out)) ∧
    getFileAtIndex specLayout 3 (fun _ => 0) fooArchive 0 [9] =
      Outcome.ret true ((fooArchive.drop (entryOffset specLayout fooArchive 0)).take
        (entryCompressedSize specLayout fooArchive 0)) :=
  ⟨lzDecompress_appends.1 [0xFF, 65, 66] 3 (fun _ => 0) [9] (by decide) (by decide),
   lzDecompress_appends.2.1 specLayout 3 (fun _ => 0)
    (oneCompressedArchive fooName [0xFF, 65, 66]) 0 [9] (by decide) (by decide) (by decide)
    (by decide) (by decide) (by decide) (by decide) (by decide),
   lzDecompress_appends.2.2 specLayout 3 (fun _ => 0) fooArchive 0 [9] (by decide)
    (by decide) (by decide) (by decide) (by decide)⟩

end NomadDecode
